import Mathlib

/-!
Verification development for the pagy-blocker filter-list compiler
(`tools/precompile-filters.mjs`), the dedupe tool (`tools/dedupe-filters.mjs`)
and the schema validator (`core/ruleValidator.js`).

JavaScript strings are modelled as `List Char` (named `Str`).  Each JS string
operation used by the tools is embedded as an explicit Lean function whose
semantics follows ECMAScript:
  * `jsTrim`             — `String.prototype.trim` (Unicode whitespace set);
  * `replaceSub`         — `String.prototype.replace` with a global literal
                           pattern (left-to-right, non-overlapping, the
                           replacement is not rescanned);
  * `escapeRegex`        — the tool's `escapeRegex`, whose regex
                           `/[.*+?^${}()|[\x5c\x5c]\x5c\x5c]/g` parses as: one
                           character from the class `.*+?^${}()|[\` followed by
                           the two literal characters `\]` (the character class
                           is terminated by the `]` that follows the escaped
                           backslash), the whole match prefixed with `\`;
  * `stripTrailingCarets`— `.replace(/\^+$/, '')`;
  * `dropLeadingDots`    — `.replace(/^\.+/, '')`;
  * `removeCarets`       — `.replace(/\^/g, '')`;
  * `splitLines`         — `.split(/\r?\n/)`;
  * `toLowerStr`         — `String.prototype.toLowerCase`, modelled with
                           `Char.toLower` (coincides on ASCII input).
-/

abbrev Str := List Char

/-- The ECMAScript WhiteSpace / LinesTerminator set used by `trim`. -/
def jsWhitespace (c : Char) : Bool :=
  c = ' ' ∨ c = '\t' ∨ c = '\n' ∨ c = '\r' ∨
  c = Char.ofNat 0x0B ∨ c = Char.ofNat 0x0C ∨ c = Char.ofNat 0xA0 ∨
  c = Char.ofNat 0x1680 ∨ (Char.ofNat 0x2000 ≤ c ∧ c ≤ Char.ofNat 0x200A) ∨
  c = Char.ofNat 0x2028 ∨ c = Char.ofNat 0x2029 ∨ c = Char.ofNat 0x202F ∨
  c = Char.ofNat 0x205F ∨ c = Char.ofNat 0x3000 ∨ c = Char.ofNat 0xFEFF

/-- `String.prototype.trim`. -/
def jsTrim (s : Str) : Str :=
  ((s.dropWhile jsWhitespace).reverse.dropWhile jsWhitespace).reverse

/-- Does `l` contain the character `c` (JS `String.prototype.includes` with a
one-character needle)? -/
def hasChar (l : Str) (c : Char) : Bool := l.any (· == c)

/-- Does `l` contain `sub` as a contiguous substring
(JS `String.prototype.includes`)? -/
def hasSub (sub : Str) : Str → Bool
  | [] => sub.isEmpty
  | c :: rest => sub.isPrefixOf (c :: rest) || hasSub sub rest

/-- `.replace(/\^+$/, '')` — strip one run of trailing carets. -/
def stripTrailingCarets (s : Str) : Str :=
  (s.reverse.dropWhile (· == '^')).reverse

/-- `.replace(/^\.+/, '')` — strip leading dots. -/
def dropLeadingDots (s : Str) : Str := s.dropWhile (· == '.')

/-- `.replace(/\^/g, '')` — remove every caret. -/
def removeCarets (s : Str) : Str := s.filter (· != '^')

/-- `String.prototype.toLowerCase` (ASCII-faithful model). -/
def toLowerStr (s : Str) : Str := s.map Char.toLower

/-- Recursion core of `replaceSub`; `fuel` only bounds the recursion depth
(every call site passes `fuel ≥ length of the list`, and each step consumes at
least one character, so the `0` branch is never reached there). -/
def replaceSubAux (pat repl : List Char) : Nat → List Char → List Char
  | _, [] => []
  | 0, l => l
  | fuel + 1, c :: rest =>
    if pat ≠ [] ∧ pat.isPrefixOf (c :: rest) then
      repl ++ replaceSubAux pat repl fuel (rest.drop (pat.length - 1))
    else
      c :: replaceSubAux pat repl fuel rest

/-- JS `str.replace(pat, repl)` for a global literal pattern `pat`:
left-to-right scan, non-overlapping matches, replacement not rescanned. -/
def replaceSub (pat repl l : List Char) : List Char :=
  replaceSubAux pat repl l.length l

namespace Precompile

/-- The characters inside the (early-terminated) character class of the
tool's `escapeRegex` regex literal. -/
def escClassChars : Str := ['.', '*', '+', '?', '^', '$', '{', '}', '(', ')', '|', '[', '\\']

/-- `escapeRegex` from `tools/precompile-filters.mjs`.  Because the character
class in `/[.*+?^${}()|[\x5c\x5c]\x5c\x5c]/g` is terminated early by the `]`
after the escaped backslash, the pattern matches a class character followed by
the literal two characters `\]`, and the replacement `\$&` prefixes a
backslash to that three-character match. -/
def escapeRegexAux : Nat → Str → Str
  | _, [] => []
  | 0, l => l
  | fuel + 1, c :: rest =>
    if escClassChars.contains c ∧ ['\\', ']'].isPrefixOf rest then
      '\\' :: c :: '\\' :: ']' :: escapeRegexAux fuel (rest.drop 2)
    else
      c :: escapeRegexAux fuel rest

def escapeRegex (s : Str) : Str := escapeRegexAux s.length s

/-- `parseDomainOnlyFromDoublePipe` from `tools/precompile-filters.mjs`. -/
def parseDomainOnlyFromDoublePipe (rule : Str) : Option Str :=
  if ¬ ("||".data.isPrefixOf rule) then none
  else
    let rest := rule.drop 2
    let rest := stripTrailingCarets rest
    if hasChar rest '/' then none
    else
      let host := jsTrim (dropLeadingDots (removeCarets rest))
      if host = [] then none
      else some (toLowerStr host)

/-- The placeholder the tool uses to protect wildcard expansions. -/
def WILDCARD : Str := "__WILDCARD__".data

/-- `buildRegexForDomainRule` from `tools/precompile-filters.mjs`. -/
def buildRegexForDomainRule (rule : Str) : Option Str :=
  let rest := rule.drop 2
  let hostPart :=
    match rest.findIdx? (· == '/') with
    | none => rest
    | some i => rest.take i
  let pathPart :=
    match rest.findIdx? (· == '/') with
    | none => ([] : Str)
    | some i => rest.drop i
  let hostPart := stripTrailingCarets hostPart
  let pathPart := stripTrailingCarets pathPart
  let hostPart := removeCarets hostPart
  let hostPart := jsTrim (dropLeadingDots hostPart)
  if hostPart = [] then none
  else
    let escapedHost := escapeRegex hostPart
    let hostRegex := "([a-z0-9-]+\\.)*".data ++ escapedHost
    let pathRegex :=
      if pathPart ≠ [] then
        let p := replaceSub "*".data ".*".data (removeCarets pathPart)
        let p := replaceSub ".*".data WILDCARD p
        let p := escapeRegex p
        let p := replaceSub WILDCARD ".*".data p
        if ¬ ("/".data.isPrefixOf p) then '/' :: p else p
      else "(/|$)".data
    some ("^https?:\\/\\/".data ++ hostRegex ++ "(?::\\d+)?".data ++ pathRegex)

/-- `abpToRegex` from `tools/precompile-filters.mjs`. -/
def abpToRegex (rule0 : Str) : Option Str :=
  let rule := jsTrim rule0
  if rule = [] ∨ "!".data.isPrefixOf rule ∨ "[".data.isPrefixOf rule then none
  else if hasSub "##".data rule ∨ hasSub "#@#".data rule ∨ hasSub "#?#".data rule then none
  else if "@@".data.isPrefixOf rule then none
  else if "||".data.isPrefixOf rule then buildRegexForDomainRule rule
  else if "|http://".data.isPrefixOf rule ∨ "|https://".data.isPrefixOf rule then
    let r := rule.drop 1
    let r := removeCarets r
    let r := replaceSub "*".data ".*".data r
    let r := replaceSub ".*".data WILDCARD r
    let r := escapeRegex r
    let r := replaceSub WILDCARD ".*".data r
    some ('^' :: r)
  else
    let r := removeCarets rule
    let r := replaceSub "*".data ".*".data r
    let r := replaceSub ".*".data WILDCARD r
    let r := escapeRegex r
    let r := replaceSub WILDCARD ".*".data r
    if r = [] then none else some r

end Precompile

/-- Line classification of the main loop of `tools/precompile-filters.mjs`
(lines 167–175) and, with the same predicates in the same order, of the main
loop of `tools/dedupe-filters.mjs` (lines 58–62): blank, comment (`!`),
metadata (`[`), exception (`@@`), cosmetic (`##`/`#@#`/`#?#`), else a network
candidate.  First match wins. -/
inductive LClass where
  | blank | comment | metadata | exception | cosmetic | candidate
deriving DecidableEq

def classify (t : Str) : LClass :=
  if t = [] then .blank
  else if "!".data.isPrefixOf t then .comment
  else if "[".data.isPrefixOf t then .metadata
  else if "@@".data.isPrefixOf t then .exception
  else if hasSub "##".data t ∨ hasSub "#@#".data t ∨ hasSub "#?#".data t then .cosmetic
  else .candidate

namespace Precompile

def DEFAULT_RESOURCE_TYPES : List String :=
  ["script", "image", "stylesheet", "xmlhttprequest", "font", "media",
   "sub_frame", "websocket", "ping", "other"]

/-- `EXTENSION_CONFIG.LIMITS.MAX_RULES_COUNT` from `core/config.js`. -/
def MAX_RULES_COUNT : Nat := 30000

/-- The `condition` object of a compiled rule; absent JS fields are `none`. -/
structure RuleCondition where
  requestDomains : Option (List Str)
  regexFilter : Option Str
  isUrlFilterCaseSensitive : Option Bool
  resourceTypes : List String
  domainType : String
deriving DecidableEq

/-- A compiled declarativeNetRequest rule as emitted by the tool. -/
structure Rule where
  id : Nat
  priority : Nat
  actionType : String
  condition : RuleCondition
deriving DecidableEq

/-- The regex-rule record pushed in the main loop (id assigned later). -/
def mkRegexRule (regex : Str) : Rule :=
  ⟨0, 1, "block", ⟨none, some regex, some false, DEFAULT_RESOURCE_TYPES, "thirdParty"⟩⟩

/-- The domain fast-path record pushed during assembly. -/
def mkDomainRule (d : Str) : Rule :=
  ⟨0, 1, "block", ⟨some [d], none, none, DEFAULT_RESOURCE_TYPES, "thirdParty"⟩⟩

/-- Loop state of `main`: the insertion-ordered domain set, the regex-rule
list, and the statistics counters accumulated line by line.
(`domainOnlyUnique` and `domainOnlyDuplicates` are derived after the loop;
the `domainCounts` map feeds only the optional duplicate listing.) -/
structure PState where
  doms : List Str
  regs : List Rule
  empty : Nat
  comments : Nat
  metadata : Nat
  exceptions : Nat
  cosmetic : Nat
  domainOnlyTotal : Nat
  regexCount : Nat
deriving DecidableEq

def initState : PState := ⟨[], [], 0, 0, 0, 0, 0, 0, 0⟩

/-- `domainSet.add` — a JS `Set` keeps insertion order, ignoring repeats. -/
def addDomain (doms : List Str) (d : Str) : List Str :=
  if d ∈ doms then doms else doms ++ [d]

/-- One iteration of the `for (const rawLine of lines)` loop of `main`. -/
def stepLine (st : PState) (rawLine : Str) : PState :=
  let line := jsTrim rawLine
  match classify line with
  | .blank => { st with empty := st.empty + 1 }
  | .comment => { st with comments := st.comments + 1 }
  | .metadata => { st with metadata := st.metadata + 1 }
  | .exception => { st with exceptions := st.exceptions + 1 }
  | .cosmetic => { st with cosmetic := st.cosmetic + 1 }
  | .candidate =>
    match parseDomainOnlyFromDoublePipe line with
    | some d =>
      { st with doms := addDomain st.doms d,
                domainOnlyTotal := st.domainOnlyTotal + 1 }
    | none =>
      match abpToRegex line with
      | some regex =>
        { st with regs := st.regs ++ [mkRegexRule regex],
                  regexCount := st.regexCount + 1 }
      | none => st

def processAll (lines : List Str) : PState := lines.foldl stepLine initState

/-- The `id++` counter threading of `main`'s two emission loops. -/
def assignIds : Nat → List Rule → List Rule
  | _, [] => []
  | n, r :: rs => { r with id := n } :: assignIds (n + 1) rs

/-- The fully assembled rule list: domain rules (first-seen order) first,
then regex rules (source order), ids 1,2,3,…. -/
def assemble (st : PState) : List Rule :=
  assignIds 1 (st.doms.map mkDomainRule ++ st.regs)

/-- `main` as a pure function from the split input lines to the emitted rule
array: assemble, then `rules.slice(0, MAX_RULES)`. -/
def compileRules (lines : List Str) : List Rule :=
  (assemble (processAll lines)).take MAX_RULES_COUNT

end Precompile

namespace Dedupe

/-- `parseDomainOnlyFromDoublePipe` from `tools/dedupe-filters.mjs` (the `/`
test happens before the trailing-caret strip, unlike the compiler's copy). -/
def parseDomainOnlyFromDoublePipe (rule : Str) : Option Str :=
  if rule = [] then none
  else if ¬ ("||".data.isPrefixOf rule) then none
  else
    let rest := rule.drop 2
    if hasChar rest '/' then none
    else
      let rest := stripTrailingCarets rest
      let host := jsTrim (dropLeadingDots (removeCarets rest))
      if host = [] then none
      else some (toLowerStr host)

/-- `raw.split(/\r?\n/)` — a lone `\r` is not a separator; `\r\n` and `\n`
are. -/
def splitLines : Str → List Str
  | [] => [[]]
  | '\r' :: '\n' :: rest => [] :: splitLines rest
  | '\n' :: rest => [] :: splitLines rest
  | c :: rest =>
    match splitLines rest with
    | [] => [[c]]
    | l :: ls => (c :: l) :: ls

/-- `hasCRLF ? '\r\n' : '\n'` — the detected line-ending style. -/
def eolOf (raw : Str) : Str :=
  if hasSub "\r\n".data raw then "\r\n".data else "\n".data

/-- The main loop of `tools/dedupe-filters.mjs` over the split lines, carrying
the `seenDomains` set; passthrough lines keep their original text. -/
def dedupeStep : List Str → List Str → List Str
  | _, [] => []
  | seen, line :: rest =>
    let trimmed := jsTrim line
    if classify trimmed ≠ LClass.candidate then line :: dedupeStep seen rest
    else
      match parseDomainOnlyFromDoublePipe trimmed with
      | some d =>
        if d ∈ seen then dedupeStep seen rest
        else line :: dedupeStep (seen ++ [d]) rest
      | none => line :: dedupeStep seen rest

def dedupeLines (lines : List Str) : List Str := dedupeStep [] lines

/-- `Array.prototype.join(sep)`. -/
def joinSep (sep : Str) : List Str → Str
  | [] => []
  | [l] => l
  | l :: l2 :: rest => l ++ sep ++ joinSep sep (l2 :: rest)

/-- The whole text-to-text transformation of the dedupe tool:
split on universal newlines, drop later domain-only duplicates, rejoin with
the detected line ending. -/
def dedupeText (raw : Str) : Str :=
  joinSep (eolOf raw) (dedupeLines (splitLines raw))

end Dedupe

/-!
A small executable model of the ECMAScript regular-expression dialect the tool
emits (literals, escapes, `.`, `\d`, positive character classes with ranges,
groups, `*`/`+`/`?`), with Brzozowski-derivative matching and a parser from
the concrete regex string, so claims about "the regex matches URL u" are
stated directly on the emitted string. -/

inductive RE where
  | emp
  | eps
  | chr : Char → RE
  | dot
  | digit
  | cls : List (Char × Char) → RE
  | cat : RE → RE → RE
  | alt : RE → RE → RE
  | star : RE → RE
deriving DecidableEq

namespace RE

/-- JS `.` matches everything except the four line terminators. -/
def isLineTerm (c : Char) : Bool :=
  c = '\n' ∨ c = '\r' ∨ c = Char.ofNat 0x2028 ∨ c = Char.ofNat 0x2029

def inCls (rs : List (Char × Char)) (c : Char) : Bool :=
  rs.any fun p => p.1 ≤ c ∧ c ≤ p.2

def nullable : RE → Bool
  | .emp => false
  | .eps => true
  | .chr _ => false
  | .dot => false
  | .digit => false
  | .cls _ => false
  | .cat r s => nullable r && nullable s
  | .alt r s => nullable r || nullable s
  | .star _ => true

/-- Simplifying sequencing, to keep derivatives small. -/
def scat : RE → RE → RE
  | .emp, _ => .emp
  | .eps, s => s
  | _, .emp => .emp
  | r, .eps => r
  | r, s => .cat r s

/-- Simplifying alternation. -/
def salt : RE → RE → RE
  | .emp, s => s
  | r, .emp => r
  | r, s => .alt r s

def deriv : RE → Char → RE
  | .emp, _ => .emp
  | .eps, _ => .emp
  | .chr c, a => if a = c then .eps else .emp
  | .dot, a => if isLineTerm a then .emp else .eps
  | .digit, a => if '0' ≤ a ∧ a ≤ '9' then .eps else .emp
  | .cls rs, a => if inCls rs a then .eps else .emp
  | .cat r s, a =>
    if nullable r then salt (scat (deriv r a) s) (deriv s a)
    else scat (deriv r a) s
  | .alt r s, a => salt (deriv r a) (deriv s a)
  | .star r, a => scat (deriv r a) (.star r)

/-- Does `r` match some (possibly empty) prefix of the word? -/
def matchPre (r : RE) : Str → Bool
  | [] => nullable r
  | c :: cs => nullable r || matchPre (deriv r c) cs

/-- Unanchored search: does `r` match somewhere inside the word? -/
def reSearch (r : RE) : Str → Bool
  | [] => nullable r
  | c :: cs => matchPre r (c :: cs) || reSearch r cs

/-- Character-class body parser (called just after `[`; positive classes with
ranges, a trailing literal `-`, and escaped members). -/
def clsItems : Str → Option (List (Char × Char) × Str)
  | [] => none
  | ']' :: rest => some ([], rest)
  | '\\' :: c :: rest =>
    match clsItems rest with
    | some (is, r) => some ((c, c) :: is, r)
    | none => none
  | a :: '-' :: b :: rest =>
    if b = ']' then some ([(a, a), ('-', '-')], rest)
    else
      match clsItems rest with
      | some (is, r) => some ((a, b) :: is, r)
      | none => none
  | c :: rest =>
    match clsItems rest with
    | some (is, r) => some ((c, c) :: is, r)
    | none => none

/-- The metacharacters that cannot stand bare in the supported subset. -/
def bareMeta : Str :=
  ['*', '+', '?', '|', ')', ']', Char.ofNat 0x7b, Char.ofNat 0x7d, '^', '$']

/-- Sequence parser for the supported subset; `fuel` bounds recursion depth
(strictly more than the input length suffices). Returns the parsed regex and
the unconsumed remainder (stopping at a `)`). -/
def parseSeq : Nat → Str → Option (RE × Str)
  | 0, _ => none
  | _ + 1, [] => some (.eps, [])
  | _ + 1, ')' :: rest => some (.eps, ')' :: rest)
  | fuel + 1, s =>
    let atom? : Option (RE × Str) :=
      match s with
      | '(' :: rest =>
        let rest := if "?:".data.isPrefixOf rest then rest.drop 2 else rest
        match parseSeq fuel rest with
        | some (r, ')' :: rest2) => some (r, rest2)
        | _ => none
      | '[' :: '^' :: _ => none
      | '[' :: rest =>
        match clsItems rest with
        | some (is, r) => some (.cls is, r)
        | none => none
      | '\\' :: c :: rest =>
        if c = 'd' then some (.digit, rest)
        else if c.isAlpha ∨ c.isDigit then none
        else some (.chr c, rest)
      | '.' :: rest => some (.dot, rest)
      | c :: rest => if c ∈ bareMeta ∨ c = '\\' ∨ c = '(' then none else some (.chr c, rest)
      | [] => none
    match atom? with
    | none => none
    | some (a, rest) =>
      let quantified : RE × Str :=
        match rest with
        | '*' :: r2 => (.star a, r2)
        | '+' :: r2 => (.cat a (.star a), r2)
        | '?' :: r2 => (.alt .eps a, r2)
        | _ => (a, rest)
      match parseSeq fuel quantified.2 with
      | some (b, rest2) => some (.cat quantified.1 b, rest2)
      | none => none

/-- Parse a whole JS regex source string from the emitted subset; the Bool
records a leading `^` anchor. -/
def jsRegexParse (s : Str) : Option (Bool × RE) :=
  let anchored := "^".data.isPrefixOf s
  let body := if anchored then s.drop 1 else s
  match parseSeq (2 * body.length + 2) body with
  | some (r, []) => some (anchored, r)
  | _ => none

/-- `new RegExp(pattern).test(url)` for the supported subset: anchored
patterns must match a prefix, unanchored ones anywhere. `none` means the
pattern uses a construct outside the modelled subset. -/
def jsRegexTest (pattern url : Str) : Option Bool :=
  (jsRegexParse pattern).map fun p =>
    if p.1 then matchPre p.2 url else reSearch p.2 url

end RE

/-!
Embedding of `core/ruleValidator.js`.  JavaScript values are modelled by
`JVal` (integers stand for the JS numbers that occur; a non-integer or
non-numeric value fails `Number.isInteger` exactly as in JS).  The host regex
engine consulted by `new RegExp(...)` is abstracted by a parameter
`regexCheck : Str → Option Str` (`none` = the pattern compiles, `some m` = it
throws with message `m`); theorems quantify over it. -/

inductive JVal where
  | null
  | undef
  | bool : Bool → JVal
  | num : Int → JVal
  | str : Str → JVal
  | arr : List JVal → JVal
  | obj : List (Str × JVal) → JVal

namespace JVal

/-- `typeof v === 'object'` (true for `null`, arrays and plain objects). -/
def typeofObject : JVal → Bool
  | .null => true
  | .arr _ => true
  | .obj _ => true
  | _ => false

/-- JS truthiness. -/
def truthy : JVal → Bool
  | .null => false
  | .undef => false
  | .bool b => b
  | .num i => ¬ (i = 0)
  | .str s => ¬ (s = [])
  | _ => true

def isArr : JVal → Bool
  | .arr _ => true
  | _ => false

def isStr : JVal → Bool
  | .str _ => true
  | _ => false

/-- Property read `v[k]`; a missing key (or a non-object) gives `undefined`. -/
def getField : JVal → Str → JVal
  | .obj fields, k =>
    match fields.find? (fun p => p.1 == k) with
    | some p => p.2
    | none => undef
  | _, _ => undef

/-- The `k in v` operator (used only on objects here). -/
def hasKey : JVal → Str → Bool
  | .obj fields, k => fields.any (fun p => p.1 == k)
  | _, _ => false

/-- `Number.isInteger`. -/
def isInteger : JVal → Bool
  | .num _ => true
  | _ => false

/-- The integer value used in comparisons once `Number.isInteger` held. -/
def asInt : JVal → Int
  | .num i => i
  | _ => 0

/-- `.length` as used in `x.length > N` comparisons: strings and arrays have
one, anything else compares as `undefined` (always false). -/
def jsLength : JVal → Option Nat
  | .str s => some s.length
  | .arr l => some l.length
  | _ => none

mutual

/-- JS `String(v)` (template-literal interpolation). -/
def jvalToString : JVal → Str
  | .null => "null".data
  | .undef => "undefined".data
  | .bool true => "true".data
  | .bool false => "false".data
  | .num i => (toString i).data
  | .str s => s
  | .arr l => jarrToString l
  | .obj _ => "[object Object]".data

/-- `Array.prototype.toString`: elements joined by `,`, with `null` and
`undefined` elements printing as empty. -/
def jarrToString : List JVal → Str
  | [] => []
  | [v] => jelemToString v
  | v :: rest => jelemToString v ++ ',' :: jarrToString rest

def jelemToString : JVal → Str
  | .null => []
  | .undef => []
  | v => jvalToString v

end

end JVal

namespace Validator

open JVal

def MAX_RULE_ID : Nat := 300000
def MAX_PRIORITY : Nat := 2147483647
def MAX_URL_FILTER_LENGTH : Nat := 2000

def VALID_ACTION_TYPES : List Str :=
  ["block", "allow", "redirect", "upgradeScheme", "modifyHeaders"].map String.data

def VALID_RESOURCE_TYPES : List Str :=
  ["main_frame", "sub_frame", "stylesheet", "script", "image", "font",
   "object", "xmlhttprequest", "ping", "csp_report", "media", "websocket",
   "webtransport", "webbundle", "other"].map String.data

/-- The `{ isValid, errors }` result record. -/
structure VResult where
  isValid : Bool
  errors : List Str
deriving DecidableEq

def msgIdx (i : Nat) : Str := "Regel an Index ".data ++ (toString i).data

def joinStrs (sep : Str) (l : List Str) : Str := List.intercalate sep l

/-- Is the value one of the valid action-type strings
(`VALID_ACTION_TYPES.includes(x)`)? -/
def actionTypeOk (v : JVal) : Bool :=
  match v with
  | .str s => s ∈ VALID_ACTION_TYPES
  | _ => false

/-- `validateUrlFilter` from `core/ruleValidator.js`. -/
def validateUrlFilter (urlFilter : JVal) (ruleIndex : Nat) : VResult :=
  match urlFilter with
  | .str s =>
    let errors :=
      (if s.length = 0 then [msgIdx ruleIndex ++ " urlFilter darf nicht leer sein".data] else [])
      ++ (if s.length > MAX_URL_FILTER_LENGTH then
            [msgIdx ruleIndex ++ " urlFilter zu lang: ".data ++ (toString s.length).data ++
              " Zeichen. Maximal: ".data ++ (toString MAX_URL_FILTER_LENGTH).data] else [])
      ++ (if s.any (fun c => c ≤ Char.ofNat 0x1F ∨ c = Char.ofNat 0x7F) then
            [msgIdx ruleIndex ++ " urlFilter enthält ungültige Steuerzeichen".data] else [])
    ⟨errors.isEmpty, errors⟩
  | _ => ⟨false, [msgIdx ruleIndex ++ " urlFilter muss eine Zeichenfolge sein".data]⟩

/-- `validateResourceTypes` from `core/ruleValidator.js`. -/
def validateResourceTypes (resourceTypes : JVal) (ruleIndex : Nat) : VResult :=
  match resourceTypes with
  | .arr l =>
    let errors :=
      (if l.length = 0 then [msgIdx ruleIndex ++ " resourceTypes darf nicht leer sein".data] else [])
      ++ l.flatMap (fun rt =>
          match rt with
          | .str s =>
            if s ∈ VALID_RESOURCE_TYPES then []
            else [msgIdx ruleIndex ++ " ungültiger resourceType: ".data ++ s ++
                  ". Gültige Typen: ".data ++ joinStrs ", ".data VALID_RESOURCE_TYPES]
          | v => [msgIdx ruleIndex ++ " resourceType muss eine Zeichenfolge sein: ".data ++
                  jvalToString v])
    ⟨errors.isEmpty, errors⟩
  | _ => ⟨false, [msgIdx ruleIndex ++ " resourceTypes muss ein Array sein".data]⟩

def domainFields : List Str :=
  ["domains", "excludedDomains", "requestDomains", "excludedRequestDomains",
   "initiatorDomains", "excludedInitiatorDomains"].map String.data

/-- Property access `v.length` in JS throws a `TypeError` exactly when `v` is
`null` or `undefined`; on every other value it yields a (possibly
`undefined`) property and the surrounding comparison proceeds. -/
def lengthReadThrows : JVal → Bool
  | .null => true
  | .undef => true
  | _ => false

/-- The `errors` array `validateRuleCondition` builds on its normal-return
path (push order of the JS). Only consulted when the function does not throw,
i.e. when a present `regexFilter` is not `null`/`undefined`, so in the length
branch `jsLength` faithfully models the compared `.length` value. -/
def conditionErrors (regexCheck : Str → Option Str) (condition : JVal)
    (ruleIndex : Nat) : List Str :=
  (if hasKey condition "urlFilter".data then
    (validateUrlFilter (getField condition "urlFilter".data) ruleIndex).errors
   else [])
  ++ (if hasKey condition "regexFilter".data then
        let rf := getField condition "regexFilter".data
        (match regexCheck (jvalToString rf) with
         | some m => [msgIdx ruleIndex ++ " hat einen ungültigen regexFilter: ".data ++ m]
         | none => [])
        ++ (match jsLength rf with
            | some n =>
              if n > MAX_URL_FILTER_LENGTH then
                [msgIdx ruleIndex ++ " regexFilter zu lang: ".data ++ (toString n).data ++
                 " Zeichen. Maximal: ".data ++ (toString MAX_URL_FILTER_LENGTH).data]
              else []
            | none => [])
      else [])
  ++ (if hasKey condition "resourceTypes".data then
        (validateResourceTypes (getField condition "resourceTypes".data) ruleIndex).errors
      else [])
  ++ domainFields.flatMap (fun f =>
      if hasKey condition f then
        match getField condition f with
        | .arr l =>
          l.flatMap (fun d =>
            match d with
            | .str s =>
              if s.length = 0 then
                [msgIdx ruleIndex ++ " condition.".data ++ f ++
                 " enthält eine ungültige Domain: ".data ++ jvalToString d]
              else []
            | _ => [msgIdx ruleIndex ++ " condition.".data ++ f ++
                    " enthält eine ungültige Domain: ".data ++ jvalToString d])
        | _ => [msgIdx ruleIndex ++ " condition.".data ++ f ++ " muss ein Array sein".data]
      else [])

/-- `validateRuleCondition` from `core/ruleValidator.js`; `regexCheck` is the
abstracted host `new RegExp` constructor (`none` = compiles). The JS reads
`condition.regexFilter.length` OUTSIDE the try/catch that guards
`new RegExp`, so a present `regexFilter` whose value is `null` or `undefined`
makes the function throw an uncaught `TypeError`; `none` models that thrown
outcome (whatever errors were pushed before the throw are discarded with
it). -/
def validateRuleCondition (regexCheck : Str → Option Str) (condition : JVal)
    (ruleIndex : Nat) : Option VResult :=
  if ¬ (truthy condition ∧ typeofObject condition) then
    some ⟨false, [msgIdx ruleIndex ++ " Bedingung muss ein Objekt sein".data]⟩
  else if hasKey condition "regexFilter".data ∧
      lengthReadThrows (getField condition "regexFilter".data) then
    none
  else
    some ⟨(conditionErrors regexCheck condition ruleIndex).isEmpty,
          conditionErrors regexCheck condition ruleIndex⟩

def requiredFields : List Str := ["id", "priority", "action", "condition"].map String.data

/-- The error accumulator of `validateRuleStructure` (the `errors` array the
JS function builds, in push order). -/
def structureErrors (regexCheck : Str → Option Str) (rule : JVal)
    (index : Nat) : List Str :=
  requiredFields.flatMap (fun f =>
    if hasKey rule f then []
    else [msgIdx index ++ " fehlt das erforderliche Feld: ".data ++ f])
  ++ (if hasKey rule "id".data then
            let v := getField rule "id".data
            if ¬ isInteger v ∨ asInt v < 1 ∨ asInt v > (MAX_RULE_ID : Int) then
              [msgIdx index ++ " hat eine ungültige ID: ".data ++ jvalToString v ++
               ". Muss eine ganze Zahl zwischen 1 und ".data ++ (toString MAX_RULE_ID).data ++
               " sein".data]
            else []
          else [])
      ++ (if hasKey rule "priority".data then
            let v := getField rule "priority".data
            if ¬ isInteger v ∨ asInt v < 1 ∨ asInt v > (MAX_PRIORITY : Int) then
              [msgIdx index ++ " hat eine ungültige Priorität: ".data ++ jvalToString v ++
               ". Muss eine ganze Zahl zwischen 1 und ".data ++ (toString MAX_PRIORITY).data ++
               " sein".data]
            else []
          else [])
      ++ (if hasKey rule "action".data then
            let av := getField rule "action".data
            if ¬ truthy av ∨ ¬ typeofObject av then
              [msgIdx index ++ " Aktion muss ein Objekt sein".data]
            else if ¬ truthy (getField av "type".data) ∨ ¬ actionTypeOk (getField av "type".data) then
              [msgIdx index ++ " hat einen ungültigen Aktionstyp: ".data ++
               jvalToString (getField av "type".data) ++
               ". Muss einer von folgenden sein: ".data ++ joinStrs ", ".data VALID_ACTION_TYPES]
            else []
          else [])
  ++ (if hasKey rule "condition".data then
        match validateRuleCondition regexCheck (getField rule "condition".data) index with
        | some res => res.errors
        | none => []
      else [])

/-- `validateRuleStructure` from `core/ruleValidator.js`. The condition
sub-validation can throw (see `validateRuleCondition`) and no try/catch
surrounds the call, so the `TypeError` propagates: `none` models the whole
structure validation throwing instead of returning a result. On the
normal-return path the `none` arm inside `structureErrors` is unreachable. -/
def validateRuleStructure (regexCheck : Str → Option Str) (rule : JVal)
    (index : Nat) : Option VResult :=
  if ¬ truthy rule ∨ ¬ typeofObject rule ∨ isArr rule then
    some ⟨false, [msgIdx index ++ " muss ein Objekt sein".data]⟩
  else if hasKey rule "condition".data ∧
      validateRuleCondition regexCheck (getField rule "condition".data) index = none then
    none
  else
    some ⟨(structureErrors regexCheck rule index).isEmpty,
          structureErrors regexCheck rule index⟩

end Validator

/-!
Derived and specification-side notions used by the claims.
-/

/-- A compiled rule of the domain fast-path kind. -/
def isDomainRule (r : Precompile.Rule) : Bool := r.condition.requestDomains.isSome

/-- A compiled rule of the regex (pattern-match) kind. -/
def isRegexRule (r : Precompile.Rule) : Bool := r.condition.regexFilter.isSome

/-- The domain token the compiler's main loop extracts from an input line, if
any: the line must classify as a network candidate and then succeed in
`parseDomainOnlyFromDoublePipe`. -/
def candKey (l : Str) : Option Str :=
  if classify (jsTrim l) = LClass.candidate then
    Precompile.parseDomainOnlyFromDoublePipe (jsTrim l)
  else none

/-- All domain tokens extracted from the input, in source order. -/
def extractedTokens (lines : List Str) : List Str := lines.filterMap candKey

/-- First-seen deduplication (the JS `Set` insertion order). -/
def firstSeen (ts : List Str) : List Str := ts.foldl Precompile.addDomain []

/-- Specification-side restatement of domain-only extraction, written from the
claim's wording: succeed exactly when the line starts with `||`, the remainder
contains no `/`, and stripping trailing carets, remaining internal carets,
leading dots and surrounding whitespace leaves a non-empty string, returned
lowercased. -/
def domainTokenSpec (line : Str) : Option Str :=
  if "||".data.isPrefixOf line ∧ hasChar (line.drop 2) '/' = false then
    let cleaned := jsTrim (dropLeadingDots (removeCarets (stripTrailingCarets (line.drop 2))))
    if cleaned = [] then none else some (toLowerStr cleaned)
  else none

/-- The normalized domain-only key of a line as seen by the dedupe tool
(`none` for lines of a passthrough classification). -/
def dedupKey (l : Str) : Option Str :=
  if classify (jsTrim l) = LClass.candidate then
    Dedupe.parseDomainOnlyFromDoublePipe (jsTrim l)
  else none

/-- Specification-side restatement of the dedupe output (written from the
claim's wording): walk the lines, keeping every line that is not a
domain-only line whose normalized entry already occurred on an earlier line;
`pre` is the list of lines already walked. -/
def selKept : List Str → List Str → List Str
  | _, [] => []
  | pre, l :: rest =>
    if (dedupKey l).isSome ∧ ∃ p ∈ pre, dedupKey p = dedupKey l then
      selKept (pre ++ [l]) rest
    else
      l :: selKept (pre ++ [l]) rest

/-- The keys of the domain-only lines of a line list. -/
def keysOf (lines : List Str) : List Str := lines.filterMap dedupKey

/-- `P` holds for every element except possibly the last one. -/
def allButLast (P : Str → Prop) : List Str → Prop
  | [] => True
  | [_] => True
  | l :: l2 :: rest => P l ∧ allButLast P (l2 :: rest)

/-- Generator of pairwise distinct domain tokens (`a….com` with `n+1` letters
`a`), used to instantiate the large-input scenarios. -/
def mkDom (n : Nat) : Str := List.replicate (n + 1) 'a' ++ ".com".data

/-- The corresponding domain-only filter line `||a….com`. -/
def mkDomLine (n : Nat) : Str := "||".data ++ mkDom n

/-- Bump the statistics counter matching a classification (the network
candidate class has no counter of its own at classification time). -/
def bumpClass (c : LClass) (st : Precompile.PState) : Precompile.PState :=
  match c with
  | .blank => { st with empty := st.empty + 1 }
  | .comment => { st with comments := st.comments + 1 }
  | .metadata => { st with metadata := st.metadata + 1 }
  | .exception => { st with exceptions := st.exceptions + 1 }
  | .cosmetic => { st with cosmetic := st.cosmetic + 1 }
  | .candidate => st

/-- Bump the domain-only total statistic (the whole effect of a duplicate
domain-only line). -/
def bumpDomTotal (st : Precompile.PState) : Precompile.PState :=
  { st with domainOnlyTotal := st.domainOnlyTotal + 1 }

/-!
Shared helper lemmas.
-/

theorem hasChar_iff_mem {l : Str} {c : Char} : hasChar l c = true ↔ c ∈ l := by
  simp only [hasChar, List.any_eq_true, beq_iff_eq]
  constructor
  · rintro ⟨x, hx, rfl⟩; exact hx
  · intro h; exact ⟨c, h, rfl⟩

theorem dropWhile_eq_self_of_all {p : Char → Bool} {l : Str}
    (h : ∀ c ∈ l, p c = false) : l.dropWhile p = l := by
  cases l with
  | nil => rfl
  | cons c rest => simp [List.dropWhile_cons, h c (by simp)]

theorem jsTrim_eq_self {l : Str} (h : ∀ c ∈ l, jsWhitespace c = false) : jsTrim l = l := by
  unfold jsTrim
  rw [dropWhile_eq_self_of_all h, dropWhile_eq_self_of_all, List.reverse_reverse]
  intro c hc
  exact h c (by simpa using hc)

theorem stripTrailingCarets_eq_self {l : Str} (h : ∀ c ∈ l, c ≠ '^') :
    stripTrailingCarets l = l := by
  unfold stripTrailingCarets
  rw [dropWhile_eq_self_of_all, List.reverse_reverse]
  intro c hc
  simpa using h c (by simpa using hc)

theorem removeCarets_eq_self {l : Str} (h : ∀ c ∈ l, c ≠ '^') : removeCarets l = l := by
  unfold removeCarets
  apply List.filter_eq_self.2
  intro c hc
  simpa using h c hc

theorem dropLeadingDots_cons {c : Char} {l : Str} (h : c ≠ '.') :
    dropLeadingDots (c :: l) = c :: l := by
  simp [dropLeadingDots, List.dropWhile_cons, h]

theorem toLowerStr_eq_self {l : Str} (h : ∀ c ∈ l, c.toLower = c) : toLowerStr l = l := by
  unfold toLowerStr
  rw [List.map_congr_left h]
  exact List.map_id l

theorem mem_dropWhile_iff_of_neg {p : Char → Bool} {l : Str} {a : Char}
    (hp : p a = false) : a ∈ l.dropWhile p ↔ a ∈ l := by
  constructor
  · intro h
    have := List.dropWhile_sublist (p := p) (l := l)
    exact this.mem h
  · intro h
    induction l with
    | nil => simpa using h
    | cons c rest ih =>
      rw [List.dropWhile_cons]
      by_cases hc : p c = true
      · simp only [hc, if_true]
        apply ih
        rcases List.mem_cons.1 h with rfl | h
        · rw [hp] at hc; cases hc
        · exact h
      · simp only [Bool.not_eq_true] at hc
        simp [hc, h]

theorem mem_stripTrailingCarets_iff {l : Str} {a : Char} (ha : a ≠ '^') :
    a ∈ stripTrailingCarets l ↔ a ∈ l := by
  unfold stripTrailingCarets
  rw [List.mem_reverse, mem_dropWhile_iff_of_neg (by simpa using ha), List.mem_reverse]

theorem hasChar_stripTrailingCarets {l : Str} :
    hasChar (stripTrailingCarets l) '/' = hasChar l '/' := by
  by_cases h : hasChar l '/' = true
  · rw [h]
    rw [hasChar_iff_mem] at h ⊢
    exact (mem_stripTrailingCarets_iff (by decide)).2 h
  · have h' : hasChar l '/' = false := by
      cases hh : hasChar l '/'
      · rfl
      · exact absurd hh h
    rw [h']
    cases hh : hasChar (stripTrailingCarets l) '/'
    · rfl
    · exfalso
      apply h
      rw [hasChar_iff_mem] at hh ⊢
      exact (mem_stripTrailingCarets_iff (by decide)).1 hh

theorem hasSub_cons_false {p : Char} {ps l : Str}
    (h : ∀ c ∈ l, c ≠ p) : hasSub (p :: ps) l = false := by
  induction l with
  | nil => rfl
  | cons c rest ih =>
    have hc : (p == c) = false := by
      simp only [beq_eq_false_iff_ne, ne_eq]
      intro e
      exact h c (by simp) e.symm
    unfold hasSub
    rw [ih fun x hx => h x (by simp [hx])]
    simp [List.isPrefixOf, hc]

theorem precompile_pds_eq_spec (line : Str) :
    Precompile.parseDomainOnlyFromDoublePipe line = domainTokenSpec line := by
  unfold Precompile.parseDomainOnlyFromDoublePipe domainTokenSpec
  by_cases hp : "||".data.isPrefixOf line = true
  · by_cases hs : hasChar (line.drop 2) '/' = true
    · have hs' : hasChar (stripTrailingCarets (line.drop 2)) '/' = true := by
        rw [hasChar_stripTrailingCarets]; exact hs
      simp [hp, hs, hs']
    · simp only [Bool.not_eq_true] at hs
      have hs' : hasChar (stripTrailingCarets (line.drop 2)) '/' = false := by
        rw [hasChar_stripTrailingCarets]; exact hs
      simp [hp, hs, hs']
  · simp only [Bool.not_eq_true] at hp
    simp [hp]

theorem dedupe_pds_eq_spec (line : Str) :
    Dedupe.parseDomainOnlyFromDoublePipe line = domainTokenSpec line := by
  unfold Dedupe.parseDomainOnlyFromDoublePipe domainTokenSpec
  by_cases he : line = []
  · subst he; simp
  · by_cases hp : "||".data.isPrefixOf line = true
    · by_cases hs : hasChar (line.drop 2) '/' = true
      · simp [he, hp, hs]
      · simp only [Bool.not_eq_true] at hs
        simp [he, hp, hs]
    · simp only [Bool.not_eq_true] at hp
      simp [he, hp]

/-- C5: domain-only extraction — in the compiler's and the dedupe tool's copy
alike — succeeds exactly when the line starts with `||`, the remainder has no
`/`, and stripping trailing carets, internal carets, leading dots and
whitespace leaves a non-empty string, returned lowercased; `||^` fails and is
dropped by the compiler without an error. -/
theorem C5_domain_only_extraction (line : Str) :
    Precompile.parseDomainOnlyFromDoublePipe line = domainTokenSpec line ∧
    Dedupe.parseDomainOnlyFromDoublePipe line = domainTokenSpec line ∧
    Precompile.parseDomainOnlyFromDoublePipe "||^".data = none ∧
    Precompile.compileRules ["||^".data] = [] :=
  ⟨precompile_pds_eq_spec line, dedupe_pds_eq_spec line, by decide, by decide⟩

theorem stepLine_skip {st : Precompile.PState} {l : Str}
    (h : classify (jsTrim l) ≠ LClass.candidate) :
    Precompile.stepLine st l = bumpClass (classify (jsTrim l)) st := by
  unfold Precompile.stepLine bumpClass
  cases hc : classify (jsTrim l) <;> simp [hc] at h ⊢

theorem stepLine_bumpClass_comm (c : LClass) (st : Precompile.PState) (x : Str) :
    Precompile.stepLine (bumpClass c st) x = bumpClass c (Precompile.stepLine st x) := by
  unfold Precompile.stepLine
  cases hc : classify (jsTrim x) <;>
    cases hp : Precompile.parseDomainOnlyFromDoublePipe (jsTrim x) <;>
    cases hr : Precompile.abpToRegex (jsTrim x) <;>
    cases c <;> simp [bumpClass, hc, hp, hr]

theorem foldl_stepLine_bumpClass (c : LClass) (post : List Str) :
    ∀ st : Precompile.PState,
      post.foldl Precompile.stepLine (bumpClass c st) =
        bumpClass c (post.foldl Precompile.stepLine st) := by
  induction post with
  | nil => intro st; rfl
  | cons x rest ih =>
    intro st
    simp only [List.foldl_cons, stepLine_bumpClass_comm, ih]

theorem processAll_insert_skip (pre post : List Str) (l : Str)
    (h : classify (jsTrim l) ≠ LClass.candidate) :
    Precompile.processAll (pre ++ l :: post) =
      bumpClass (classify (jsTrim l)) (Precompile.processAll (pre ++ post)) := by
  unfold Precompile.processAll
  rw [List.foldl_append, List.foldl_append, List.foldl_cons, stepLine_skip h,
    foldl_stepLine_bumpClass]

theorem assemble_bumpClass (c : LClass) (st : Precompile.PState) :
    Precompile.assemble (bumpClass c st) = Precompile.assemble st := by
  cases c <;> rfl

theorem classify_skip_of_cond {t : Str}
    (h : t = [] ∨ "!".data.isPrefixOf t = true ∨ "[".data.isPrefixOf t = true ∨
         "@@".data.isPrefixOf t = true ∨ hasSub "##".data t = true ∨
         hasSub "#@#".data t = true ∨ hasSub "#?#".data t = true) :
    classify t ≠ LClass.candidate := by
  intro hc
  unfold classify at hc
  split_ifs at hc with h1 h2 h3 h4 h5
  rcases h with h | h | h | h | h | h | h
  · exact h1 h
  · exact h2 h
  · exact h3 h
  · exact h4 h
  · exact h5 (Or.inl h)
  · exact h5 (Or.inr (Or.inl h))
  · exact h5 (Or.inr (Or.inr h))

/-- C8: a line whose trimmed text is blank, starts with `!`, `[` or `@@`, or
contains `##`, `#@#` or `#?#` (tested in that precedence order) contributes
no rule and no error: it only bumps the matching per-classification counter,
and `@@||example.com/ads^$script` alone compiles to zero rules. -/
theorem C8_skip_classes (pre post : List Str) (l : Str)
    (h : jsTrim l = [] ∨ "!".data.isPrefixOf (jsTrim l) = true ∨
         "[".data.isPrefixOf (jsTrim l) = true ∨
         "@@".data.isPrefixOf (jsTrim l) = true ∨
         hasSub "##".data (jsTrim l) = true ∨
         hasSub "#@#".data (jsTrim l) = true ∨
         hasSub "#?#".data (jsTrim l) = true) :
    Precompile.processAll (pre ++ l :: post) =
      bumpClass (classify (jsTrim l)) (Precompile.processAll (pre ++ post)) ∧
    classify (jsTrim l) ≠ LClass.candidate ∧
    Precompile.compileRules (pre ++ l :: post) = Precompile.compileRules (pre ++ post) ∧
    Precompile.compileRules ["@@||example.com/ads^$script".data] = [] := by
  have hnc := classify_skip_of_cond h
  refine ⟨processAll_insert_skip pre post l hnc, hnc, ?_, by decide⟩
  unfold Precompile.compileRules
  rw [processAll_insert_skip pre post l hnc, assemble_bumpClass]

/-- Witness for C8 at the concrete exception line. -/
theorem C8_skip_classes_witness :
    "@@".data.isPrefixOf (jsTrim "@@||example.com/ads^$script".data) = true ∧
    Precompile.compileRules ["@@||example.com/ads^$script".data] =
      Precompile.compileRules [] :=
  ⟨by decide,
   (C8_skip_classes [] [] "@@||example.com/ads^$script".data
     (Or.inr (Or.inr (Or.inr (Or.inl (by decide)))))).2.2.1⟩

theorem assignIds_length (n : Nat) (l : List Precompile.Rule) :
    (Precompile.assignIds n l).length = l.length := by
  induction l generalizing n with
  | nil => rfl
  | cons r rs ih => simp [Precompile.assignIds, ih]

theorem assignIds_append (n : Nat) (a b : List Precompile.Rule) :
    Precompile.assignIds n (a ++ b) =
      Precompile.assignIds n a ++ Precompile.assignIds (n + a.length) b := by
  induction a generalizing n with
  | nil => simp [Precompile.assignIds]
  | cons r rs ih =>
    simp only [List.cons_append, Precompile.assignIds, List.length_cons, List.append_eq]
    have e : n + 1 + rs.length = n + (rs.length + 1) := by omega
    rw [ih, e]

theorem assignIds_take_map_id (k n : Nat) (l : List Precompile.Rule) :
    (((Precompile.assignIds n l).take k).map Precompile.Rule.id) =
      List.range' n (min k l.length) := by
  induction l generalizing n k with
  | nil => simp [Precompile.assignIds]
  | cons r rs ih =>
    cases k with
    | zero => simp
    | succ k =>
      simp only [Precompile.assignIds, List.take_succ_cons, List.map_cons, ih,
        List.length_cons, Nat.succ_min_succ, List.range'_succ]

theorem assignIds_take_map_condition (k n : Nat) (l : List Precompile.Rule) :
    ((Precompile.assignIds n l).take k).map Precompile.Rule.condition =
      (l.take k).map Precompile.Rule.condition := by
  induction l generalizing n k with
  | nil => simp [Precompile.assignIds]
  | cons r rs ih =>
    cases k with
    | zero => simp
    | succ k => simp [Precompile.assignIds, ih]

theorem assignIds_map_condition (n : Nat) (l : List Precompile.Rule) :
    (Precompile.assignIds n l).map Precompile.Rule.condition =
      l.map Precompile.Rule.condition := by
  have h := assignIds_take_map_condition l.length n l
  rwa [List.take_of_length_le (by rw [assignIds_length]), List.take_length] at h

theorem mem_assignIds_condition {n : Nat} {l : List Precompile.Rule}
    {r : Precompile.Rule} (h : r ∈ Precompile.assignIds n l) :
    r.condition ∈ l.map Precompile.Rule.condition := by
  rw [← assignIds_map_condition n l]
  exact List.mem_map_of_mem _ h

/-- Every regex-rule record accumulated by the loop has the
`mkRegexRule` condition shape. -/
theorem processAll_regs_shape (lines : List Str) :
    ∀ r ∈ (Precompile.processAll lines).regs,
      r.condition.requestDomains = none ∧ r.condition.regexFilter.isSome := by
  have main : ∀ (ls : List Str) (st : Precompile.PState),
      (∀ r ∈ st.regs, r.condition.requestDomains = none ∧ r.condition.regexFilter.isSome) →
      ∀ r ∈ (ls.foldl Precompile.stepLine st).regs,
        r.condition.requestDomains = none ∧ r.condition.regexFilter.isSome := by
    intro ls
    induction ls with
    | nil => intro st h; exact h
    | cons x rest ih =>
      intro st h
      apply ih
      intro r hr
      rcases hc : classify (jsTrim x) with _ | _ | _ | _ | _ | _ <;>
        simp only [Precompile.stepLine, hc] at hr <;>
        try exact h r hr
      rcases hp : Precompile.parseDomainOnlyFromDoublePipe (jsTrim x) with _ | d
      · rcases hg : Precompile.abpToRegex (jsTrim x) with _ | g
        · simp only [hp, hg] at hr
          exact h r hr
        · simp only [hp, hg, List.mem_append, List.mem_singleton] at hr
          rcases hr with hr | rfl
          · exact h r hr
          · exact ⟨rfl, rfl⟩
      · simp only [hp] at hr
        exact h r hr
  exact main lines Precompile.initState (by intro r hr; cases hr)

theorem compileRules_eq (lines : List Str) :
    Precompile.compileRules lines =
      (Precompile.assignIds 1
        ((Precompile.processAll lines).doms.map Precompile.mkDomainRule)).take
        Precompile.MAX_RULES_COUNT ++
      (Precompile.assignIds (1 + (Precompile.processAll lines).doms.length)
        (Precompile.processAll lines).regs).take
        (Precompile.MAX_RULES_COUNT - (Precompile.processAll lines).doms.length) := by
  unfold Precompile.compileRules Precompile.assemble
  rw [assignIds_append, List.take_append_eq_append_take, assignIds_length, List.length_map]

theorem mem_assign_dom {n : Nat} {doms : List Str} {r : Precompile.Rule}
    (h : r ∈ Precompile.assignIds n (doms.map Precompile.mkDomainRule)) :
    ∃ d ∈ doms, r.condition = (Precompile.mkDomainRule d).condition := by
  have hc := mem_assignIds_condition h
  rw [List.map_map] at hc
  rcases List.mem_map.1 hc with ⟨d, hd, he⟩
  exact ⟨d, hd, he.symm⟩

theorem assign_dom_kind {n : Nat} {doms : List Str} {r : Precompile.Rule}
    (h : r ∈ Precompile.assignIds n (doms.map Precompile.mkDomainRule)) :
    isDomainRule r = true ∧ isRegexRule r = false := by
  rcases mem_assign_dom h with ⟨d, _, he⟩
  unfold isDomainRule isRegexRule
  rw [he]
  exact ⟨rfl, rfl⟩

theorem assign_regs_kind {lines : List Str} {n : Nat} {r : Precompile.Rule}
    (h : r ∈ Precompile.assignIds n (Precompile.processAll lines).regs) :
    isDomainRule r = false ∧ isRegexRule r = true := by
  have hc := mem_assignIds_condition h
  rcases List.mem_map.1 hc with ⟨r0, hr0, he⟩
  have hs := processAll_regs_shape lines r0 hr0
  unfold isDomainRule isRegexRule
  rw [← he]
  exact ⟨by rw [hs.1]; rfl, hs.2⟩

theorem assign_dom_take_filterMap (k n : Nat) (doms : List Str) :
    ((Precompile.assignIds n (doms.map Precompile.mkDomainRule)).take k).filterMap
        (fun r => r.condition.requestDomains) =
      (doms.map (fun d => [d])).take k := by
  induction doms generalizing n k with
  | nil => simp [Precompile.assignIds]
  | cons d rest ih =>
    cases k with
    | zero => simp
    | succ k =>
      simp only [List.map_cons, Precompile.assignIds, List.take_succ_cons,
        List.filterMap_cons, ih]
      rfl

theorem filterMap_take_of_all_isSome {α β : Type} {f : α → Option β} {l : List α}
    (h : ∀ x ∈ l, (f x).isSome) (k : Nat) :
    (l.take k).filterMap f = (l.filterMap f).take k := by
  induction l generalizing k with
  | nil => simp
  | cons x rest ih =>
    cases k with
    | zero => simp
    | succ k =>
      have hx := h x (by simp)
      rcases Option.isSome_iff_exists.1 hx with ⟨b, hb⟩
      simp only [List.take_succ_cons, List.filterMap_cons, hb]
      rw [ih (fun y hy => h y (by simp [hy])) k]

/-- The emitted single-domain conditions list exactly the first-seen domains,
truncated at the ceiling. -/
theorem out_filterMap_reqDoms (lines : List Str) :
    (Precompile.compileRules lines).filterMap (fun r => r.condition.requestDomains) =
      ((Precompile.processAll lines).doms.map (fun d => [d])).take
        Precompile.MAX_RULES_COUNT := by
  rw [compileRules_eq lines, List.filterMap_append, assign_dom_take_filterMap]
  have hnil : ((Precompile.assignIds (1 + (Precompile.processAll lines).doms.length)
      (Precompile.processAll lines).regs).take
      (Precompile.MAX_RULES_COUNT - (Precompile.processAll lines).doms.length)).filterMap
      (fun r => r.condition.requestDomains) = [] := by
    apply List.filterMap_eq_nil_iff.2
    intro r hr
    have h := (assign_regs_kind (List.take_subset _ _ hr)).1
    unfold isDomainRule at h
    exact Option.not_isSome_iff_eq_none.1 (by simp [h])
  rw [hnil, List.append_nil]

/-- The emitted regex filters are the collected regex filters, truncated to
the room the domain rules leave under the ceiling. -/
theorem out_filterMap_regex (lines : List Str) :
    (Precompile.compileRules lines).filterMap (fun r => r.condition.regexFilter) =
      ((Precompile.processAll lines).regs.filterMap (fun r => r.condition.regexFilter)).take
        (Precompile.MAX_RULES_COUNT - (Precompile.processAll lines).doms.length) := by
  rw [compileRules_eq lines, List.filterMap_append]
  have hAnil : ((Precompile.assignIds 1
      ((Precompile.processAll lines).doms.map Precompile.mkDomainRule)).take
      Precompile.MAX_RULES_COUNT).filterMap (fun r => r.condition.regexFilter) = [] := by
    apply List.filterMap_eq_nil_iff.2
    intro r hr
    have h := (assign_dom_kind (List.take_subset _ _ hr)).2
    unfold isRegexRule at h
    exact Option.not_isSome_iff_eq_none.1 (by simp [h])
  rw [hAnil, List.nil_append]
  have e1 : ((Precompile.assignIds (1 + (Precompile.processAll lines).doms.length)
      (Precompile.processAll lines).regs).take
      (Precompile.MAX_RULES_COUNT - (Precompile.processAll lines).doms.length)).filterMap
      (fun r => r.condition.regexFilter) =
      ((Precompile.processAll lines).regs.take
        (Precompile.MAX_RULES_COUNT - (Precompile.processAll lines).doms.length)).filterMap
        (fun r => r.condition.regexFilter) := by
    have hm := assignIds_take_map_condition
      (Precompile.MAX_RULES_COUNT - (Precompile.processAll lines).doms.length)
      (1 + (Precompile.processAll lines).doms.length) (Precompile.processAll lines).regs
    have lift : ∀ l : List Precompile.Rule,
        l.filterMap (fun r => r.condition.regexFilter) =
        (l.map Precompile.Rule.condition).filterMap
          (fun c => Precompile.RuleCondition.regexFilter c) := by
      intro l
      rw [List.filterMap_map]
      rfl
    rw [lift, lift, hm]
  rw [e1, filterMap_take_of_all_isSome (fun r hr => (processAll_regs_shape lines r hr).2)]

/-- C3: emitted identifiers are the contiguous sequence `1..N` with
`N ≤ 30000`, in emission order: the output splits as the block of
domain-match rules (listing the first-seen domains in order) followed by the
block of pattern-match rules (in source encounter order). -/
theorem C3_identifier_density (lines : List Str) :
    (Precompile.compileRules lines).map Precompile.Rule.id =
      List.range' 1 (Precompile.compileRules lines).length ∧
    (Precompile.compileRules lines).length ≤ Precompile.MAX_RULES_COUNT ∧
    Precompile.compileRules lines =
      (Precompile.compileRules lines).filter isDomainRule ++
        (Precompile.compileRules lines).filter isRegexRule ∧
    (Precompile.compileRules lines).filterMap (fun r => r.condition.requestDomains) =
      ((Precompile.processAll lines).doms.map (fun d => [d])).take
        Precompile.MAX_RULES_COUNT ∧
    (Precompile.compileRules lines).filterMap (fun r => r.condition.regexFilter) =
      ((Precompile.processAll lines).regs.filterMap (fun r => r.condition.regexFilter)).take
        (Precompile.MAX_RULES_COUNT - (Precompile.processAll lines).doms.length) := by
  refine ⟨?_, ?_, ?_, ?_, ?_⟩
  · unfold Precompile.compileRules Precompile.assemble
    rw [assignIds_take_map_id, List.length_take, assignIds_length]
  · unfold Precompile.compileRules
    rw [List.length_take]
    exact Nat.min_le_left _ _
  · rw [compileRules_eq lines]
    rw [List.filter_append, List.filter_append]
    rw [List.filter_eq_self.2 (fun r hr => (assign_dom_kind (List.take_subset _ _ hr)).1),
      List.filter_eq_self.2 (fun r hr => (assign_regs_kind (List.take_subset _ _ hr)).2)]
    rw [List.filter_eq_nil_iff.2 (fun r hr => by
        rw [(assign_regs_kind (List.take_subset _ _ hr)).1]; exact Bool.false_ne_true),
      List.filter_eq_nil_iff.2 (fun r hr => by
        rw [(assign_dom_kind (List.take_subset _ _ hr)).2]; exact Bool.false_ne_true)]
    simp
  · exact out_filterMap_reqDoms lines
  · exact out_filterMap_regex lines

theorem mem_mkDom {n : Nat} {c : Char} (h : c ∈ mkDom n) : c ∈ "a.com".data := by
  unfold mkDom at h
  rcases List.mem_append.1 h with h | h
  · have he := List.eq_of_mem_replicate h
    subst he
    decide
  · have hsplit : "a.com".data = 'a' :: ".com".data := rfl
    rw [hsplit]
    exact List.mem_cons_of_mem _ h

theorem aChars_facts : ∀ c ∈ "a.com".data,
    jsWhitespace c = false ∧ c ≠ '^' ∧ c ≠ '/' ∧ c ≠ '#' ∧ Char.toLower c = c := by decide

theorem mem_mkDomLine {n : Nat} {c : Char} (h : c ∈ mkDomLine n) :
    c = '|' ∨ c ∈ mkDom n := by
  unfold mkDomLine at h
  rcases List.mem_append.1 h with h | h
  · left
    have : c ∈ ['|', '|'] := h
    rcases List.mem_cons.1 this with h | h
    · exact h
    · exact List.mem_singleton.1 h
  · exact Or.inr h

theorem mkDom_length (n : Nat) : (mkDom n).length = n + 5 := by
  have h4 : (".com".data).length = 4 := rfl
  simp [mkDom, List.length_append, List.length_replicate, h4]

theorem mkDom_inj {a b : Nat} (h : mkDom a = mkDom b) : a = b := by
  have hl := congrArg List.length h
  rw [mkDom_length, mkDom_length] at hl
  omega

theorem pds_mkDomLine (n : Nat) :
    Precompile.parseDomainOnlyFromDoublePipe (mkDomLine n) = some (mkDom n) := by
  have hpre : "||".data.isPrefixOf (mkDomLine n) = true := by
    unfold mkDomLine
    rw [List.isPrefixOf_iff_prefix]
    exact List.prefix_append _ _
  have hdrop : (mkDomLine n).drop 2 = mkDom n := rfl
  have hstrip : stripTrailingCarets (mkDom n) = mkDom n :=
    stripTrailingCarets_eq_self fun c hc => (aChars_facts c (mem_mkDom hc)).2.1
  have hslash : hasChar (mkDom n) '/' = false := by
    cases hh : hasChar (mkDom n) '/'
    · rfl
    · exact absurd rfl (aChars_facts '/' (mem_mkDom (hasChar_iff_mem.1 hh))).2.2.1
  have hrm : removeCarets (mkDom n) = mkDom n :=
    removeCarets_eq_self fun c hc => (aChars_facts c (mem_mkDom hc)).2.1
  have hcons : mkDom n = 'a' :: (List.replicate n 'a' ++ ".com".data) := by
    unfold mkDom
    rw [List.replicate_succ]
    rfl
  have hdots : dropLeadingDots (mkDom n) = mkDom n := by
    rw [hcons, dropLeadingDots_cons (by decide)]
  have htrim : jsTrim (mkDom n) = mkDom n :=
    jsTrim_eq_self fun c hc => (aChars_facts c (mem_mkDom hc)).1
  have hlower : toLowerStr (mkDom n) = mkDom n :=
    toLowerStr_eq_self fun c hc => (aChars_facts c (mem_mkDom hc)).2.2.2.2
  have hne : mkDom n ≠ [] := by
    rw [hcons]
    exact List.cons_ne_nil _ _
  unfold Precompile.parseDomainOnlyFromDoublePipe
  simp [hpre, hdrop, hstrip, hslash, hrm, hdots, htrim, hlower, hne]

theorem classify_mkDomLine (n : Nat) : classify (mkDomLine n) = LClass.candidate := by
  have h1 : mkDomLine n ≠ [] := by
    unfold mkDomLine
    simp
  have hsharp : ∀ c ∈ mkDomLine n, c ≠ '#' := by
    intro c hc
    rcases mem_mkDomLine hc with rfl | hm
    · decide
    · exact (aChars_facts c (mem_mkDom hm)).2.2.2.1
  have h2 : "!".data.isPrefixOf (mkDomLine n) = false := rfl
  have h3 : "[".data.isPrefixOf (mkDomLine n) = false := rfl
  have h4 : "@@".data.isPrefixOf (mkDomLine n) = false := rfl
  have h5 : hasSub "##".data (mkDomLine n) = false := hasSub_cons_false hsharp
  have h6 : hasSub "#@#".data (mkDomLine n) = false := hasSub_cons_false hsharp
  have h7 : hasSub "#?#".data (mkDomLine n) = false := hasSub_cons_false hsharp
  unfold classify
  simp [h1, h2, h3, h4, h5, h6, h7]

theorem jsTrim_mkDomLine (n : Nat) : jsTrim (mkDomLine n) = mkDomLine n := by
  apply jsTrim_eq_self
  intro c hc
  rcases mem_mkDomLine hc with rfl | hm
  · decide
  · exact (aChars_facts c (mem_mkDom hm)).1

theorem stepLine_mkDomLine (st : Precompile.PState) (n : Nat) :
    Precompile.stepLine st (mkDomLine n) =
      { st with doms := Precompile.addDomain st.doms (mkDom n),
                domainOnlyTotal := st.domainOnlyTotal + 1 } := by
  simp only [Precompile.stepLine, jsTrim_mkDomLine, classify_mkDomLine, pds_mkDomLine]

theorem processAll_mkDomLines (n : Nat) :
    Precompile.processAll ((List.range n).map mkDomLine) =
      ⟨(List.range n).map mkDom, [], 0, 0, 0, 0, 0, n, 0⟩ := by
  induction n with
  | zero => rfl
  | succ n ih =>
    rw [List.range_succ, List.map_append]
    unfold Precompile.processAll at ih ⊢
    rw [List.foldl_append, ih]
    simp only [List.map_cons, List.map_nil, List.foldl_cons, List.foldl_nil]
    rw [stepLine_mkDomLine]
    have hnotmem : mkDom n ∉ (List.range n).map mkDom := by
      intro hm
      rcases List.mem_map.1 hm with ⟨k, hk, he⟩
      have hke := mkDom_inj he
      rw [List.mem_range] at hk
      omega
    unfold Precompile.addDomain
    rw [if_neg hnotmem]
    simp

theorem out_countP_domain (lines : List Str) :
    (Precompile.compileRules lines).countP isDomainRule =
      min (Precompile.processAll lines).doms.length Precompile.MAX_RULES_COUNT := by
  rw [compileRules_eq lines, List.countP_append]
  rw [List.countP_eq_length_filter, List.countP_eq_length_filter]
  rw [List.filter_eq_self.2 (fun r hr => (assign_dom_kind (List.take_subset _ _ hr)).1)]
  rw [List.filter_eq_nil_iff.2 (fun r hr => by
      rw [(assign_regs_kind (List.take_subset _ _ hr)).1]
      exact Bool.false_ne_true)]
  rw [List.length_take, assignIds_length, List.length_map, List.length_nil,
    Nat.add_zero, Nat.min_comm]

/-- C2: once the assembled list exceeds the ceiling, the emitted artifact is
its 30000-rule prefix in the fixed domain-rules-first order, so a regex rule
can only be kept when every domain rule survived, and 30000 or more distinct
domain tokens leave room for domain rules only. -/
theorem C2_truncation_priority (lines : List Str)
    (h : Precompile.MAX_RULES_COUNT <
      (Precompile.assemble (Precompile.processAll lines)).length) :
    Precompile.compileRules lines =
      (Precompile.assemble (Precompile.processAll lines)).take
        Precompile.MAX_RULES_COUNT ∧
    (Precompile.compileRules lines).countP isDomainRule =
      min (Precompile.processAll lines).doms.length Precompile.MAX_RULES_COUNT ∧
    (∀ r ∈ Precompile.compileRules lines, isRegexRule r = true →
      (Precompile.compileRules lines).countP isDomainRule =
        (Precompile.processAll lines).doms.length) ∧
    (Precompile.MAX_RULES_COUNT ≤ (Precompile.processAll lines).doms.length →
      (Precompile.compileRules lines).length = Precompile.MAX_RULES_COUNT ∧
      ∀ r ∈ Precompile.compileRules lines,
        isDomainRule r = true ∧ isRegexRule r = false) := by
  refine ⟨rfl, out_countP_domain lines, ?_, ?_⟩
  · intro r hr hreg
    rw [compileRules_eq lines] at hr
    rcases List.mem_append.1 hr with hr | hr
    · have hk := (assign_dom_kind (List.take_subset _ _ hr)).2
      rw [hreg] at hk
      exact absurd hk (by decide)
    · have hne : (Precompile.MAX_RULES_COUNT -
          (Precompile.processAll lines).doms.length) ≠ 0 := by
        intro h0
        rw [h0, List.take_zero] at hr
        cases hr
      have hlt : (Precompile.processAll lines).doms.length <
          Precompile.MAX_RULES_COUNT := by omega
      rw [out_countP_domain lines, Nat.min_eq_left (Nat.le_of_lt hlt)]
  · intro hge
    have hB : Precompile.MAX_RULES_COUNT -
        (Precompile.processAll lines).doms.length = 0 := by omega
    have hout : Precompile.compileRules lines =
        (Precompile.assignIds 1
          ((Precompile.processAll lines).doms.map Precompile.mkDomainRule)).take
          Precompile.MAX_RULES_COUNT := by
      rw [compileRules_eq lines, hB, List.take_zero, List.append_nil]
    constructor
    · rw [hout, List.length_take, assignIds_length, List.length_map]
      exact Nat.min_eq_left hge
    · intro r hr
      rw [hout] at hr
      exact assign_dom_kind (List.take_subset _ _ hr)

/-- Witness for C2: 35000 pairwise distinct domain-only rules overflow the
ceiling; the output is exactly 30000 rules, all of them domain-match rules. -/
theorem C2_truncation_priority_witness :
    Precompile.MAX_RULES_COUNT <
      (Precompile.assemble
        (Precompile.processAll ((List.range 35000).map mkDomLine))).length ∧
    (Precompile.compileRules ((List.range 35000).map mkDomLine)).length =
      Precompile.MAX_RULES_COUNT ∧
    ∀ r ∈ Precompile.compileRules ((List.range 35000).map mkDomLine),
      isDomainRule r = true ∧ isRegexRule r = false := by
  have hP := processAll_mkDomLines 35000
  have hlen : (Precompile.processAll ((List.range 35000).map mkDomLine)).doms.length =
      35000 := by
    rw [hP]
    simp
  have hA : Precompile.MAX_RULES_COUNT <
      (Precompile.assemble
        (Precompile.processAll ((List.range 35000).map mkDomLine))).length := by
    unfold Precompile.assemble
    rw [assignIds_length, List.length_append, List.length_map, hlen, hP]
    norm_num [Precompile.MAX_RULES_COUNT]
  have h2 := C2_truncation_priority ((List.range 35000).map mkDomLine) hA
  have hge : Precompile.MAX_RULES_COUNT ≤
      (Precompile.processAll ((List.range 35000).map mkDomLine)).doms.length := by
    rw [hlen]
    norm_num [Precompile.MAX_RULES_COUNT]
  exact ⟨hA, (h2.2.2.2 hge).1, (h2.2.2.2 hge).2⟩

theorem stepLine_doms (st : Precompile.PState) (x : Str) :
    (Precompile.stepLine st x).doms =
      match candKey x with
      | some d => Precompile.addDomain st.doms d
      | none => st.doms := by
  unfold candKey
  rcases hc : classify (jsTrim x) with _ | _ | _ | _ | _ | _ <;>
    simp only [Precompile.stepLine, hc] <;> try simp
  rcases hp : Precompile.parseDomainOnlyFromDoublePipe (jsTrim x) with _ | d
  · rcases hg : Precompile.abpToRegex (jsTrim x) with _ | g <;> simp [hp, hg]
  · simp [hp]

theorem foldl_doms (ls : List Str) : ∀ st : Precompile.PState,
    (ls.foldl Precompile.stepLine st).doms =
      (extractedTokens ls).foldl Precompile.addDomain st.doms := by
  induction ls with
  | nil => intro st; rfl
  | cons x rest ih =>
    intro st
    rw [List.foldl_cons, ih]
    unfold extractedTokens
    rw [List.filterMap_cons]
    rcases hk : candKey x with _ | t
    · rw [stepLine_doms st x, hk]
    · rw [stepLine_doms st x, hk, List.foldl_cons]

theorem processAll_doms (lines : List Str) :
    (Precompile.processAll lines).doms = firstSeen (extractedTokens lines) :=
  foldl_doms lines Precompile.initState

theorem mem_addDomain {doms : List Str} {d x : Str} :
    x ∈ Precompile.addDomain doms d ↔ x ∈ doms ∨ x = d := by
  by_cases hd : d ∈ doms
  · simp only [Precompile.addDomain, if_pos hd]
    constructor
    · exact Or.inl
    · rintro (h | rfl)
      · exact h
      · exact hd
  · simp [Precompile.addDomain, if_neg hd]

theorem foldl_addDomain_mem (ts : List Str) : ∀ (init : List Str) (x : Str),
    x ∈ ts.foldl Precompile.addDomain init ↔ x ∈ init ∨ x ∈ ts := by
  induction ts with
  | nil => intro init x; simp
  | cons t rest ih =>
    intro init x
    rw [List.foldl_cons, ih, mem_addDomain]
    simp only [List.mem_cons]
    tauto

theorem addDomain_nodup {doms : List Str} {d : Str} (h : doms.Nodup) :
    (Precompile.addDomain doms d).Nodup := by
  by_cases hd : d ∈ doms
  · simpa [Precompile.addDomain, if_pos hd] using h
  · simp [Precompile.addDomain, if_neg hd, List.nodup_append, h, hd]

theorem foldl_addDomain_nodup (ts : List Str) : ∀ init : List Str,
    init.Nodup → (ts.foldl Precompile.addDomain init).Nodup := by
  induction ts with
  | nil => intro init h; exact h
  | cons t rest ih =>
    intro init h
    rw [List.foldl_cons]
    exact ih _ (addDomain_nodup h)

theorem processAll_doms_nodup (lines : List Str) :
    (Precompile.processAll lines).doms.Nodup := by
  rw [processAll_doms]
  exact foldl_addDomain_nodup _ [] List.nodup_nil

theorem processAll_doms_mem (lines : List Str) (x : Str) :
    x ∈ (Precompile.processAll lines).doms ↔ x ∈ extractedTokens lines := by
  rw [processAll_doms]
  unfold firstSeen
  rw [foldl_addDomain_mem]
  simp

theorem candKey_eq_some {l t : Str} (h : candKey l = some t) :
    classify (jsTrim l) = LClass.candidate ∧
    Precompile.parseDomainOnlyFromDoublePipe (jsTrim l) = some t := by
  unfold candKey at h
  by_cases hc : classify (jsTrim l) = LClass.candidate
  · rw [if_pos hc] at h
    exact ⟨hc, h⟩
  · rw [if_neg hc] at h
    cases h

theorem stepLine_dup {st : Precompile.PState} {l t : Str}
    (ht : candKey l = some t) (hmem : t ∈ st.doms) :
    Precompile.stepLine st l = bumpDomTotal st := by
  rcases candKey_eq_some ht with ⟨hc, hp⟩
  simp only [Precompile.stepLine, hc, hp, bumpDomTotal]
  unfold Precompile.addDomain
  rw [if_pos hmem]

theorem stepLine_bumpDomTotal_comm (st : Precompile.PState) (x : Str) :
    Precompile.stepLine (bumpDomTotal st) x = bumpDomTotal (Precompile.stepLine st x) := by
  unfold Precompile.stepLine
  rcases hc : classify (jsTrim x) with _ | _ | _ | _ | _ | _ <;>
    rcases hp : Precompile.parseDomainOnlyFromDoublePipe (jsTrim x) with _ | d <;>
    rcases hr : Precompile.abpToRegex (jsTrim x) with _ | g <;>
    simp [bumpDomTotal, hc, hp, hr]

theorem foldl_stepLine_bumpDomTotal (post : List Str) :
    ∀ st : Precompile.PState,
      post.foldl Precompile.stepLine (bumpDomTotal st) =
        bumpDomTotal (post.foldl Precompile.stepLine st) := by
  induction post with
  | nil => intro st; rfl
  | cons x rest ih =>
    intro st
    simp only [List.foldl_cons, stepLine_bumpDomTotal_comm, ih]

theorem filterMap_all_some {α β : Type} {f : α → Option β} {g : α → β}
    (h : ∀ a, f a = some (g a)) : ∀ l : List α, l.filterMap f = l.map g := by
  intro l
  induction l with
  | nil => rfl
  | cons a rest ih => rw [List.filterMap_cons, h a, ih, List.map_cons]

theorem candKey_mkDomLine (n : Nat) : candKey (mkDomLine n) = some (mkDom n) := by
  unfold candKey
  rw [jsTrim_mkDomLine, classify_mkDomLine, if_pos rfl, pds_mkDomLine]

theorem extractedTokens_mkDomLines (n : Nat) :
    extractedTokens ((List.range n).map mkDomLine) = (List.range n).map mkDom := by
  unfold extractedTokens
  rw [List.filterMap_map]
  exact filterMap_all_some (fun k => candKey_mkDomLine k) _

theorem mkDom_map_range_nodup (n : Nat) : ((List.range n).map mkDom).Nodup :=
  (List.nodup_range n).map (fun a b e => mkDom_inj e)

/-- C6 counterexample: with 30001 pairwise distinct domain-only rules the
compiler emits only 30000 domain-match rules (the ceiling), while the input
has 30001 distinct normalized domain tokens — the claimed equality fails. -/
theorem C6_dedup_correctness_counterexample :
    ¬ ((Precompile.compileRules ((List.range 30001).map mkDomLine)).countP isDomainRule =
        (extractedTokens ((List.range 30001).map mkDomLine)).toFinset.card) := by
  have hP := processAll_mkDomLines 30001
  have hlen : (Precompile.processAll ((List.range 30001).map mkDomLine)).doms.length =
      30001 := by
    rw [hP]
    simp
  have hcount : (Precompile.compileRules ((List.range 30001).map mkDomLine)).countP
      isDomainRule = 30000 := by
    rw [out_countP_domain, hlen]
    norm_num [Precompile.MAX_RULES_COUNT]
  have hcard : (extractedTokens ((List.range 30001).map mkDomLine)).toFinset.card =
      30001 := by
    rw [extractedTokens_mkDomLines, List.toFinset_card_of_nodup (mkDom_map_range_nodup _)]
    simp
  intro he
  rw [hcount, hcard] at he
  exact absurd he (by norm_num)

/-- C6 (amended): the number of emitted domain-match rules is the number of
distinct extracted domain tokens capped at the 30000 ceiling (so the claimed
equality holds whenever the distinct count fits under the ceiling); every
domain-match rule carries exactly one domain; no domain occurs in two
emitted rules; and a repeated occurrence of an already-seen domain token
changes only the domain-only total statistic, never the emitted rules. -/
theorem C6_dedup_correctness_amended (lines : List Str) :
    (Precompile.compileRules lines).countP isDomainRule =
      min (firstSeen (extractedTokens lines)).length Precompile.MAX_RULES_COUNT ∧
    (Precompile.processAll lines).doms = firstSeen (extractedTokens lines) ∧
    (firstSeen (extractedTokens lines)).Nodup ∧
    (∀ x, x ∈ firstSeen (extractedTokens lines) ↔ x ∈ extractedTokens lines) ∧
    (∀ r ∈ Precompile.compileRules lines, isDomainRule r = true →
      ∃ d, r.condition.requestDomains = some [d]) ∧
    ((Precompile.compileRules lines).filterMap
      (fun r => r.condition.requestDomains)).Nodup ∧
    (∀ pre post l t, candKey l = some t → t ∈ extractedTokens pre →
      Precompile.processAll (pre ++ l :: post) =
        bumpDomTotal (Precompile.processAll (pre ++ post)) ∧
      Precompile.compileRules (pre ++ l :: post) =
        Precompile.compileRules (pre ++ post)) := by
  refine ⟨?_, processAll_doms lines, ?_, ?_, ?_, ?_, ?_⟩
  · rw [out_countP_domain, processAll_doms]
  · rw [← processAll_doms]
    exact processAll_doms_nodup lines
  · intro x
    rw [← processAll_doms]
    exact processAll_doms_mem lines x
  · intro r hr hd
    rw [compileRules_eq lines] at hr
    rcases List.mem_append.1 hr with hr | hr
    · rcases mem_assign_dom (List.take_subset _ _ hr) with ⟨d, _, he⟩
      exact ⟨d, by rw [he]; rfl⟩
    · have hk := (assign_regs_kind (List.take_subset _ _ hr)).1
      rw [hd] at hk
      exact absurd hk (by decide)
  · rw [out_filterMap_reqDoms]
    have hnodup : ((Precompile.processAll lines).doms.map (fun d => [d])).Nodup :=
      (processAll_doms_nodup lines).map List.singleton_injective
    exact hnodup.sublist (List.take_sublist _ _)
  · intro pre post l t ht hmem
    have hm : t ∈ (Precompile.processAll pre).doms :=
      (processAll_doms_mem pre t).2 hmem
    have happ : ∀ a b : List Str, Precompile.processAll (a ++ b) =
        b.foldl Precompile.stepLine (Precompile.processAll a) := by
      intro a b
      unfold Precompile.processAll
      rw [List.foldl_append]
    have hstep : Precompile.processAll (pre ++ l :: post) =
        bumpDomTotal (Precompile.processAll (pre ++ post)) := by
      rw [happ pre (l :: post), happ pre post, List.foldl_cons,
        stepLine_dup ht hm, foldl_stepLine_bumpDomTotal]
    refine ⟨hstep, ?_⟩
    unfold Precompile.compileRules
    rw [hstep]
    rfl

/-- Witness for C6: a concrete duplicate domain-only line is absorbed into
the statistics without changing the compiled rules. -/
theorem C6_dedup_correctness_amended_witness :
    candKey "||a.com".data = some "a.com".data ∧
    "a.com".data ∈ extractedTokens ["||a.com".data] ∧
    Precompile.compileRules ["||a.com".data, "||a.com".data] =
      Precompile.compileRules ["||a.com".data] := by
  refine ⟨by decide, by decide, ?_⟩
  have h := (C6_dedup_correctness_amended ["||a.com".data]).2.2.2.2.2.2
    ["||a.com".data] [] "||a.com".data "a.com".data (by decide) (by decide)
  exact h.2

/-- C1 is violated by the code: `escapeRegex` leaves a lone metacharacter
unescaped (its regex's character class is terminated early by the escaped
backslash), so the translated regex for the wildcard-free pattern
`ads.example` is the unescaped `ads.example`, which matches the URL
`https://adszexample/x` even though that URL does not contain the literal
pattern text — the translation matches a broader set than the literal
pattern, contradicting the intent documented in the function's own comment. -/
theorem C1_escaping_code_bug :
    Precompile.escapeRegex ".".data = ".".data ∧
    Precompile.abpToRegex "ads.example".data = some "ads.example".data ∧
    RE.jsRegexTest "ads.example".data "https://adszexample/x".data = some true ∧
    hasSub "ads.example".data "https://adszexample/x".data = false :=
  ⟨by decide, by decide, by decide, by decide⟩

/-- C4 is violated by the code: for `||ads.example.com/path/*.js^` the single
emitted pattern rule carries `^https?:\/\/([a-z0-9-]+\.)*ads.example.com(?::\d+)?/path/.*.js`
(dots unescaped, because `escapeRegex` is a no-op here), not the claimed
regex with `\.`-escaped dots; the two matching assertions of the claim do
hold for the emitted regex. -/
theorem C4_domain_path_rule_code_bug :
    Precompile.compileRules ["||ads.example.com/path/*.js^".data] =
      [⟨1, 1, "block",
        ⟨none,
         some "^https?:\\/\\/([a-z0-9-]+\\.)*ads.example.com(?::\\d+)?/path/.*.js".data,
         some false, Precompile.DEFAULT_RESOURCE_TYPES, "thirdParty"⟩⟩] ∧
    "^https?:\\/\\/([a-z0-9-]+\\.)*ads.example.com(?::\\d+)?/path/.*.js".data ≠
      "^https?:\\/\\/([a-z0-9-]+\\.)*ads\\.example\\.com(?::\\d+)?/path/.*\\.js".data ∧
    RE.jsRegexTest
      "^https?:\\/\\/([a-z0-9-]+\\.)*ads.example.com(?::\\d+)?/path/.*.js".data
      "https://cdn.ads.example.com/path/foo.js".data = some true ∧
    RE.jsRegexTest
      "^https?:\\/\\/([a-z0-9-]+\\.)*ads.example.com(?::\\d+)?/path/.*.js".data
      "https://ads.example.com.evil.net/path/foo.js".data = some false :=
  ⟨by decide, by decide, by decide, by decide⟩

theorem find?_filter_req (fields : List (Str × JVal)) (k : Str)
    (hk : k ∈ Validator.requiredFields) :
    (fields.filter (fun p => p.1 ∈ Validator.requiredFields)).find?
        (fun p => p.1 == k) =
      fields.find? (fun p => p.1 == k) := by
  induction fields with
  | nil => rfl
  | cons p rest ih =>
    by_cases he : p.1 = k
    · have hq : (decide (p.1 ∈ Validator.requiredFields)) = true := by
        rw [he]
        exact decide_eq_true hk
      have hb : (p.1 == k) = true := by
        rw [he]
        exact beq_self_eq_true k
      simp [List.filter_cons, List.find?_cons, hq, hb]
    · have hb : (p.1 == k) = false := beq_eq_false_iff_ne.2 he
      by_cases hmem : p.1 ∈ Validator.requiredFields
      · simp [List.filter_cons, List.find?_cons, hmem, hb, ih]
      · simp [List.filter_cons, List.find?_cons, hmem, hb, ih]

theorem getField_filter_req (fields : List (Str × JVal)) (k : Str)
    (hk : k ∈ Validator.requiredFields) :
    JVal.getField (JVal.obj (fields.filter (fun p => p.1 ∈ Validator.requiredFields))) k =
      JVal.getField (JVal.obj fields) k := by
  simp only [JVal.getField]
  rw [find?_filter_req fields k hk]

theorem hasKey_filter_req (fields : List (Str × JVal)) (k : Str)
    (hk : k ∈ Validator.requiredFields) :
    JVal.hasKey (JVal.obj (fields.filter (fun p => p.1 ∈ Validator.requiredFields))) k =
      JVal.hasKey (JVal.obj fields) k := by
  simp only [JVal.hasKey]
  induction fields with
  | nil => rfl
  | cons p rest ih =>
    by_cases he : p.1 = k
    · have hq : (decide (p.1 ∈ Validator.requiredFields)) = true := by
        rw [he]
        exact decide_eq_true hk
      have hb : (p.1 == k) = true := by
        rw [he]
        exact beq_self_eq_true k
      simp [List.filter_cons, List.any_cons, hq, hb]
    · have hb : (p.1 == k) = false := beq_eq_false_iff_ne.2 he
      by_cases hmem : p.1 ∈ Validator.requiredFields
      · have hq : (decide (p.1 ∈ Validator.requiredFields)) = true := decide_eq_true hmem
        simp [List.filter_cons, List.any_cons, hq, hb, ih]
      · have hq : (decide (p.1 ∈ Validator.requiredFields)) = false :=
          decide_eq_false hmem
        simp [List.filter_cons, List.any_cons, hq, hb, ih]

theorem flatMap_congr_mem {α β : Type} {l : List α} {f g : α → List β}
    (h : ∀ a ∈ l, f a = g a) : l.flatMap f = l.flatMap g := by
  induction l with
  | nil => rfl
  | cons a rest ih =>
    rw [List.flatMap_cons, List.flatMap_cons, h a (by simp),
      ih fun x hx => h x (by simp [hx])]

theorem obj_guard_false (gs : List (Str × JVal)) :
    ¬ (¬ JVal.truthy (JVal.obj gs) ∨ ¬ JVal.typeofObject (JVal.obj gs) ∨
        JVal.isArr (JVal.obj gs)) := by
  simp [JVal.truthy, JVal.typeofObject, JVal.isArr]

theorem validate_obj_eq (rc : Str → Option Str) (fields : List (Str × JVal)) (idx : Nat) :
    Validator.validateRuleStructure rc (JVal.obj fields) idx =
      if JVal.hasKey (JVal.obj fields) "condition".data ∧
          Validator.validateRuleCondition rc
            (JVal.getField (JVal.obj fields) "condition".data) idx = none then
        none
      else
        some ⟨(Validator.structureErrors rc (JVal.obj fields) idx).isEmpty,
              Validator.structureErrors rc (JVal.obj fields) idx⟩ := by
  unfold Validator.validateRuleStructure
  rw [if_neg (obj_guard_false fields)]

theorem validate_non_object (rc : Str → Option Str) (v : JVal) (idx : Nat)
    (h : ¬ JVal.truthy v ∨ ¬ JVal.typeofObject v ∨ JVal.isArr v) :
    Validator.validateRuleStructure rc v idx =
      some ⟨false, [Validator.msgIdx idx ++ " muss ein Objekt sein".data]⟩ := by
  unfold Validator.validateRuleStructure
  rw [if_pos h]

theorem validate_restrict (rc : Str → Option Str) (fields : List (Str × JVal))
    (idx : Nat) :
    Validator.validateRuleStructure rc (JVal.obj fields) idx =
      Validator.validateRuleStructure rc
        (JVal.obj (fields.filter (fun p => p.1 ∈ Validator.requiredFields))) idx := by
  have hid : "id".data ∈ Validator.requiredFields := by decide
  have hprio : "priority".data ∈ Validator.requiredFields := by decide
  have hact : "action".data ∈ Validator.requiredFields := by decide
  have hcond : "condition".data ∈ Validator.requiredFields := by decide
  have hSE : Validator.structureErrors rc (JVal.obj fields) idx =
      Validator.structureErrors rc
        (JVal.obj (fields.filter (fun p => p.1 ∈ Validator.requiredFields))) idx := by
    unfold Validator.structureErrors
    congr 1
    · congr 1
      · congr 1
        · congr 1
          · exact flatMap_congr_mem fun f hf => by rw [hasKey_filter_req _ _ hf]
          · rw [hasKey_filter_req _ _ hid, getField_filter_req _ _ hid]
        · rw [hasKey_filter_req _ _ hprio, getField_filter_req _ _ hprio]
      · rw [hasKey_filter_req _ _ hact, getField_filter_req _ _ hact]
    · rw [hasKey_filter_req _ _ hcond, getField_filter_req _ _ hcond]
  rw [validate_obj_eq, validate_obj_eq]
  simp only [hSE, hasKey_filter_req fields "condition".data hcond,
    getField_filter_req fields "condition".data hcond]

theorem validate_missing (rc : Str → Option Str) (fields : List (Str × JVal))
    (idx : Nat) (f : Str) (hf : f ∈ Validator.requiredFields)
    (hmiss : JVal.hasKey (JVal.obj fields) f = false) :
    ∀ res, Validator.validateRuleStructure rc (JVal.obj fields) idx = some res →
      res.isValid = false ∧
      (Validator.msgIdx idx ++ " fehlt das erforderliche Feld: ".data ++ f) ∈
        res.errors := by
  intro res hres
  have hmem : (Validator.msgIdx idx ++ " fehlt das erforderliche Feld: ".data ++ f) ∈
      Validator.structureErrors rc (JVal.obj fields) idx := by
    unfold Validator.structureErrors
    apply List.mem_append_left
    apply List.mem_append_left
    apply List.mem_append_left
    apply List.mem_append_left
    apply List.mem_flatMap.2
    refine ⟨f, hf, ?_⟩
    rw [hmiss]
    simp
  have hne : Validator.structureErrors rc (JVal.obj fields) idx ≠ [] := by
    intro e
    rw [e] at hmem
    cases hmem
  have hE : (Validator.structureErrors rc (JVal.obj fields) idx).isEmpty = false := by
    cases hE : (Validator.structureErrors rc (JVal.obj fields) idx).isEmpty
    · rfl
    · exact absurd (List.isEmpty_iff.1 hE) hne
  rw [validate_obj_eq] at hres
  by_cases hth : JVal.hasKey (JVal.obj fields) "condition".data ∧
      Validator.validateRuleCondition rc
        (JVal.getField (JVal.obj fields) "condition".data) idx = none
  · rw [if_pos hth] at hres
    cases hres
  · rw [if_neg hth] at hres
    have he : res = ⟨(Validator.structureErrors rc (JVal.obj fields) idx).isEmpty,
        Validator.structureErrors rc (JVal.obj fields) idx⟩ :=
      (Option.some.inj hres).symm
    rw [he]
    exact ⟨hE, hmem⟩

/-- C7 counterexample: a record carrying all four required fields (valid) plus
the extra field `foo` is reported valid by `validateRuleStructure`, refuting
"exactly the required fields" as a rejection rule. -/
theorem C7_exact_fields_counterexample :
    Validator.validateRuleStructure (fun _ => none)
      (JVal.obj [("id".data, JVal.num 1), ("priority".data, JVal.num 1),
        ("action".data, JVal.obj [("type".data, JVal.str "block".data)]),
        ("condition".data, JVal.obj []), ("foo".data, JVal.str "bar".data)]) 0 =
      some ⟨true, []⟩ ∧
    JVal.hasKey
      (JVal.obj [("id".data, JVal.num 1), ("priority".data, JVal.num 1),
        ("action".data, JVal.obj [("type".data, JVal.str "block".data)]),
        ("condition".data, JVal.obj []), ("foo".data, JVal.str "bar".data)])
      "foo".data = true ∧
    "foo".data ∉ Validator.requiredFields :=
  ⟨by decide, by decide, by decide⟩

/-- C7 (amended): `validateRuleStructure` reports a record that is not an
object (null, array, or primitive) invalid with an error naming the record's
index; the outcome for an object record depends only on its `id`, `priority`,
`action` and `condition` entries, so fields beyond the required four are
never examined and extra fields are not rejected; and whenever the validator
returns a result at all (it throws a `TypeError` instead when a present
`condition.regexFilter` is `null` or `undefined`), an object record missing
any of the four required fields is reported invalid, each missing field
yielding an error string naming the record's index. -/
theorem C7_required_fields_amended (rc : Str → Option Str) (v : JVal) (idx : Nat) :
    ((¬ JVal.truthy v ∨ ¬ JVal.typeofObject v ∨ JVal.isArr v) →
      Validator.validateRuleStructure rc v idx =
        some ⟨false, [Validator.msgIdx idx ++ " muss ein Objekt sein".data]⟩) ∧
    ∀ fields, v = JVal.obj fields →
      Validator.validateRuleStructure rc v idx =
        Validator.validateRuleStructure rc
          (JVal.obj (fields.filter (fun p => p.1 ∈ Validator.requiredFields))) idx ∧
      ∀ f ∈ Validator.requiredFields, JVal.hasKey v f = false →
        ∀ res, Validator.validateRuleStructure rc v idx = some res →
          res.isValid = false ∧
          (Validator.msgIdx idx ++ " fehlt das erforderliche Feld: ".data ++ f) ∈
            res.errors := by
  refine ⟨fun h => validate_non_object rc v idx h, ?_⟩
  rintro fields rfl
  exact ⟨validate_restrict rc fields idx,
    fun f hf hmiss res hres => validate_missing rc fields idx f hf hmiss res hres⟩

/-- Witness for C7 (amended): a null record is reported "muss ein Objekt
sein", and a record missing its `id` field comes back invalid. -/
theorem C7_required_fields_amended_witness :
    (¬ JVal.truthy JVal.null ∨ ¬ JVal.typeofObject JVal.null ∨ JVal.isArr JVal.null) ∧
    Validator.validateRuleStructure (fun _ => none) JVal.null 7 =
      some ⟨false, [Validator.msgIdx 7 ++ " muss ein Objekt sein".data]⟩ ∧
    "id".data ∈ Validator.requiredFields ∧
    JVal.hasKey (JVal.obj [("priority".data, JVal.num 1)]) "id".data = false ∧
    (Validator.validateRuleStructure (fun _ => none)
        (JVal.obj [("priority".data, JVal.num 1)]) 7).map Validator.VResult.isValid =
      some false := by
  refine ⟨by decide,
    (C7_required_fields_amended (fun _ => none) JVal.null 7).1 (by decide),
    by decide, by decide, ?_⟩
  have h := ((C7_required_fields_amended (fun _ => none)
      (JVal.obj [("priority".data, JVal.num 1)]) 7).2
      [("priority".data, JVal.num 1)] rfl).2 "id".data (by decide) (by decide)
  rcases hres : Validator.validateRuleStructure (fun _ => none)
      (JVal.obj [("priority".data, JVal.num 1)]) 7 with _ | res
  · exact absurd hres (by decide)
  · have hv := (h res hres).1
    simp [hv]

theorem dedupKey_of_not_cand {l : Str} (hc : classify (jsTrim l) ≠ LClass.candidate) :
    dedupKey l = none := by
  unfold dedupKey
  rw [if_neg hc]

theorem dedupKey_of_cand {l : Str} (hc : classify (jsTrim l) = LClass.candidate) :
    dedupKey l = Dedupe.parseDomainOnlyFromDoublePipe (jsTrim l) := by
  unfold dedupKey
  rw [if_pos hc]

theorem dedupeStep_selKept (L : List Str) : ∀ (seen pre : List Str),
    (∀ t, t ∈ seen ↔ ∃ p ∈ pre, dedupKey p = some t) →
    Dedupe.dedupeStep seen L = selKept pre L := by
  induction L with
  | nil => intro seen pre _; rfl
  | cons l rest ih =>
    intro seen pre hinv
    by_cases hc : classify (jsTrim l) = LClass.candidate
    · rcases hp : Dedupe.parseDomainOnlyFromDoublePipe (jsTrim l) with _ | d
      · have hk : dedupKey l = none := by rw [dedupKey_of_cand hc, hp]
        simp only [Dedupe.dedupeStep, hc, hp]
        rw [if_neg (by simp [hc])]
        simp only [selKept]
        rw [if_neg (by simp [hk])]
        congr 1
        apply ih seen (pre ++ [l])
        intro t
        rw [hinv t]
        constructor
        · rintro ⟨p, hp', he⟩
          exact ⟨p, by simp [hp'], he⟩
        · rintro ⟨p, hp', he⟩
          rcases List.mem_append.1 hp' with hp' | hp'
          · exact ⟨p, hp', he⟩
          · rw [List.mem_singleton.1 hp'] at he
            rw [hk] at he
            cases he
      · have hk : dedupKey l = some d := by rw [dedupKey_of_cand hc, hp]
        by_cases hd : d ∈ seen
        · simp only [Dedupe.dedupeStep, hc, hp]
          rw [if_neg (by simp [hc]), if_pos hd]
          simp only [selKept]
          rw [if_pos ⟨by simp [hk], by
            rcases (hinv d).1 hd with ⟨p, hp', he⟩
            exact ⟨p, hp', by rw [he, hk]⟩⟩]
          apply ih seen (pre ++ [l])
          intro t
          rw [hinv t]
          constructor
          · rintro ⟨p, hp', he⟩
            exact ⟨p, by simp [hp'], he⟩
          · rintro ⟨p, hp', he⟩
            rcases List.mem_append.1 hp' with hp' | hp'
            · exact ⟨p, hp', he⟩
            · rw [List.mem_singleton.1 hp'] at he
              rw [hk] at he
              have ht := Option.some.inj he
              rcases (hinv d).1 hd with ⟨q, hq, hqe⟩
              exact ⟨q, hq, by rw [hqe, ht]⟩
        · simp only [Dedupe.dedupeStep, hc, hp]
          rw [if_neg (by simp [hc]), if_neg hd]
          simp only [selKept]
          rw [if_neg (by
            rintro ⟨_, p, hp', he⟩
            rw [hk] at he
            exact hd ((hinv d).2 ⟨p, hp', he⟩))]
          congr 1
          apply ih (seen ++ [d]) (pre ++ [l])
          intro t
          rw [List.mem_append, List.mem_singleton, hinv t]
          constructor
          · rintro (⟨p, hp', he⟩ | rfl)
            · exact ⟨p, by simp [hp'], he⟩
            · exact ⟨l, by simp, hk⟩
          · rintro ⟨p, hp', he⟩
            rcases List.mem_append.1 hp' with hp' | hp'
            · exact Or.inl ⟨p, hp', he⟩
            · rw [List.mem_singleton.1 hp'] at he
              rw [hk] at he
              exact Or.inr (Option.some.inj he).symm
    · have hk : dedupKey l = none := dedupKey_of_not_cand hc
      simp only [Dedupe.dedupeStep]
      rw [if_pos (by simp [hc])]
      simp only [selKept]
      rw [if_neg (by simp [hk])]
      congr 1
      apply ih seen (pre ++ [l])
      intro t
      rw [hinv t]
      constructor
      · rintro ⟨p, hp', he⟩
        exact ⟨p, by simp [hp'], he⟩
      · rintro ⟨p, hp', he⟩
        rcases List.mem_append.1 hp' with hp' | hp'
        · exact ⟨p, hp', he⟩
        · rw [List.mem_singleton.1 hp'] at he
          rw [hk] at he
          cases he

theorem dedupeStep_sublist (L : List Str) : ∀ seen : List Str,
    (Dedupe.dedupeStep seen L).Sublist L := by
  induction L with
  | nil => intro seen; simp [Dedupe.dedupeStep]
  | cons l rest ih =>
    intro seen
    by_cases hc : classify (jsTrim l) = LClass.candidate
    · rcases hp : Dedupe.parseDomainOnlyFromDoublePipe (jsTrim l) with _ | d
      · simp only [Dedupe.dedupeStep, hp]
        rw [if_neg (by simp [hc])]
        exact (ih seen).cons₂ l
      · simp only [Dedupe.dedupeStep, hp]
        rw [if_neg (by simp [hc])]
        by_cases hd : d ∈ seen
        · rw [if_pos hd]
          exact (ih seen).cons l
        · rw [if_neg hd]
          exact (ih (seen ++ [d])).cons₂ l
    · simp only [Dedupe.dedupeStep]
      rw [if_pos (by simp [hc])]
      exact (ih seen).cons₂ l

/-- C9: the dedupe tool's output is the input lines with exactly the later
occurrences of an already-seen normalized domain-only entry removed — every
other line passes through byte-for-byte in original order (the output is a
sublist of the split input) — rejoined with the detected line ending (CRLF
when the input contains a CRLF, LF otherwise). -/
theorem C9_dedupe_passthrough (raw : Str) :
    Dedupe.dedupeText raw =
      Dedupe.joinSep (if hasSub "\r\n".data raw then "\r\n".data else "\n".data)
        (selKept [] (Dedupe.splitLines raw)) ∧
    (Dedupe.dedupeLines (Dedupe.splitLines raw)).Sublist (Dedupe.splitLines raw) ∧
    Dedupe.dedupeLines (Dedupe.splitLines raw) = selKept [] (Dedupe.splitLines raw) := by
  have he : Dedupe.dedupeLines (Dedupe.splitLines raw) =
      selKept [] (Dedupe.splitLines raw) :=
    dedupeStep_selKept _ [] [] (by intro t; simp)
  refine ⟨?_, dedupeStep_sublist _ [], he⟩
  unfold Dedupe.dedupeText Dedupe.eolOf
  rw [he]

theorem splitLines_nil : Dedupe.splitLines [] = [[]] := rfl

theorem splitLines_crlf (rest : Str) :
    Dedupe.splitLines ('\r' :: '\n' :: rest) = [] :: Dedupe.splitLines rest := rfl

theorem splitLines_lf (rest : Str) :
    Dedupe.splitLines ('\n' :: rest) = [] :: Dedupe.splitLines rest := rfl

theorem splitLines_cons_other {c : Char} {rest : Str} (hc : c ≠ '\n')
    (hcr : ¬ (c = '\r' ∧ ∃ r, rest = '\n' :: r)) :
    Dedupe.splitLines (c :: rest) =
      match Dedupe.splitLines rest with
      | [] => [[c]]
      | l :: ls => (c :: l) :: ls := by
  rw [Dedupe.splitLines.eq_def]
  split
  · rename_i heq
    cases heq
  · rename_i heq
    exfalso
    apply hcr
    injection heq with h1 h2
    exact ⟨h1, _, h2⟩
  · rename_i heq
    exfalso
    injection heq with h1 _
    exact hc h1
  · rename_i heq
    injection heq with h1 h2
    rw [h1, h2]

theorem splitLines_ne_nil (raw : Str) : Dedupe.splitLines raw ≠ [] := by
  induction raw with
  | nil => simp [splitLines_nil]
  | cons c rest ih =>
    by_cases h1 : c = '\n'
    · subst h1
      rw [splitLines_lf]
      simp
    · by_cases h2 : c = '\r' ∧ ∃ r, rest = '\n' :: r
      · rcases h2 with ⟨rfl, r, rfl⟩
        rw [splitLines_crlf]
        simp
      · rw [splitLines_cons_other h1 h2]
        rcases Dedupe.splitLines rest with _ | ⟨l, ls⟩
        · simp
        · simp

theorem noNL_splitLines (raw : Str) : ∀ l ∈ Dedupe.splitLines raw, '\n' ∉ l := by
  induction raw with
  | nil =>
    intro l hl
    rw [splitLines_nil] at hl
    rw [List.mem_singleton.1 hl]
    simp
  | cons c rest ih =>
    intro l hl
    by_cases h1 : c = '\n'
    · subst h1
      rw [splitLines_lf] at hl
      rcases List.mem_cons.1 hl with rfl | hl
      · simp
      · exact ih l hl
    · by_cases h2 : c = '\r' ∧ ∃ r, rest = '\n' :: r
      · rcases h2 with ⟨rfl, r, rfl⟩
        rw [splitLines_crlf] at hl
        rcases List.mem_cons.1 hl with rfl | hl
        · simp
        · exact ih l (by rw [splitLines_lf]; exact List.mem_cons_of_mem _ hl)
      · rw [splitLines_cons_other h1 h2] at hl
        rcases hs : Dedupe.splitLines rest with _ | ⟨l0, ls⟩
        · exact absurd hs (splitLines_ne_nil rest)
        · rw [hs] at hl
          rcases List.mem_cons.1 hl with rfl | hl
          · intro hmem
            rcases List.mem_cons.1 hmem with he | hmem
            · exact h1 he.symm
            · exact ih l0 (by rw [hs]; simp) hmem
          · exact ih l (by rw [hs]; exact List.mem_cons_of_mem _ hl)

theorem splitLines_no_nl {l : Str} (h : '\n' ∉ l) : Dedupe.splitLines l = [l] := by
  induction l with
  | nil => rfl
  | cons c rest ih =>
    have h1 : c ≠ '\n' := fun e => h (by rw [e]; simp)
    have h2 : ¬ (c = '\r' ∧ ∃ r, rest = '\n' :: r) := by
      rintro ⟨_, r, rfl⟩
      exact h (by simp)
    rw [splitLines_cons_other h1 h2, ih (fun hm => h (List.mem_cons_of_mem _ hm))]

theorem splitLines_append_crlf {l : Str} (s : Str) (h : '\n' ∉ l) :
    Dedupe.splitLines (l ++ '\r' :: '\n' :: s) = l :: Dedupe.splitLines s := by
  induction l with
  | nil => exact splitLines_crlf s
  | cons c rest ih =>
    have h1 : c ≠ '\n' := fun e => h (by rw [e]; simp)
    have h2 : ¬ (c = '\r' ∧ ∃ r, rest ++ '\r' :: '\n' :: s = '\n' :: r) := by
      rintro ⟨_, r, hr⟩
      cases rest with
      | nil =>
        rw [List.nil_append] at hr
        injection hr with hd _
        cases hd
      | cons d rest' =>
        rw [List.cons_append] at hr
        injection hr with hd _
        exact h (by rw [hd]; simp)
    rw [List.cons_append, splitLines_cons_other h1 h2,
      ih (fun hm => h (List.mem_cons_of_mem _ hm))]

theorem splitLines_append_lf {l : Str} (s : Str) (h : '\n' ∉ l)
    (hlast : l.getLast? ≠ some '\r') :
    Dedupe.splitLines (l ++ '\n' :: s) = l :: Dedupe.splitLines s := by
  induction l with
  | nil => exact splitLines_lf s
  | cons c rest ih =>
    have h1 : c ≠ '\n' := fun e => h (by rw [e]; simp)
    have h2 : ¬ (c = '\r' ∧ ∃ r, rest ++ '\n' :: s = '\n' :: r) := by
      rintro ⟨rfl, r, hr⟩
      cases rest with
      | nil =>
        rw [List.getLast?_singleton] at hlast
        exact hlast rfl
      | cons d rest' =>
        rw [List.cons_append] at hr
        injection hr with hd _
        exact h (by rw [hd]; simp)
    have hlast' : rest.getLast? ≠ some '\r' := by
      cases rest with
      | nil => simp
      | cons d rest' =>
        rw [List.getLast?_cons_cons] at hlast
        exact hlast
    rw [List.cons_append, splitLines_cons_other h1 h2,
      ih (fun hm => h (List.mem_cons_of_mem _ hm)) hlast']

theorem splitLines_head_empty {rest : Str} {l1 : Str} {ls : List Str}
    (h : Dedupe.splitLines rest = [] :: l1 :: ls) :
    (∃ r, rest = '\n' :: r) ∨ (∃ r, rest = '\r' :: '\n' :: r) := by
  cases rest with
  | nil =>
    rw [splitLines_nil] at h
    injection h with _ h2
    cases h2
  | cons c r =>
    by_cases h1 : c = '\n'
    · exact Or.inl ⟨r, by rw [h1]⟩
    · by_cases h2 : c = '\r' ∧ ∃ r', r = '\n' :: r'
      · rcases h2 with ⟨rfl, r', rfl⟩
        exact Or.inr ⟨r', rfl⟩
      · rw [splitLines_cons_other h1 h2] at h
        rcases hs : Dedupe.splitLines r with _ | ⟨l0, ls0⟩
        · exact absurd hs (splitLines_ne_nil r)
        · rw [hs] at h
          injection h with h3 _
          cases h3

theorem allButLast_tail {P : Str → Prop} {a : Str} {L : List Str}
    (h : allButLast P (a :: L)) : allButLast P L := by
  cases L with
  | nil => trivial
  | cons b L' => exact h.2

theorem allButLast_head {P : Str → Prop} {a b : Str} {L : List Str}
    (h : allButLast P (a :: b :: L)) : P a := h.1

theorem crlf_isPrefixOf_crlf (r : Str) :
    "\r\n".data.isPrefixOf ('\r' :: '\n' :: r) = true := by
  simp [List.isPrefixOf]

theorem allButLast_sublist {P : Str → Prop} : ∀ {S L : List Str},
    S.Sublist L → allButLast P L → allButLast P S := by
  intro S L h
  induction h with
  | slnil => intro _; trivial
  | cons a _ ih => exact fun hal => ih (allButLast_tail hal)
  | @cons₂ S0 L0 a hsub ih =>
    intro hal
    cases S0 with
    | nil => trivial
    | cons s ss =>
      cases L0 with
      | nil =>
        have := hsub.length_le
        simp at this
      | cons l0 L0' =>
        exact ⟨hal.1, ih (allButLast_tail hal)⟩

theorem allButLast_no_cr (raw : Str) (h : hasSub "\r\n".data raw = false) :
    allButLast (fun l => l.getLast? ≠ some '\r') (Dedupe.splitLines raw) := by
  induction raw with
  | nil =>
    rw [splitLines_nil]
    trivial
  | cons c rest ih =>
    have hsplit : ("\r\n".data.isPrefixOf (c :: rest) || hasSub "\r\n".data rest) = false := by
      rw [← h]
      rfl
    have hpre : "\r\n".data.isPrefixOf (c :: rest) = false :=
      (Bool.or_eq_false_iff.1 hsplit).1
    have hrest : hasSub "\r\n".data rest = false :=
      (Bool.or_eq_false_iff.1 hsplit).2
    by_cases h1 : c = '\n'
    · subst h1
      rw [splitLines_lf]
      rcases hs : Dedupe.splitLines rest with _ | ⟨l0, ls0⟩
      · exact absurd hs (splitLines_ne_nil rest)
      · refine ⟨by simp, ?_⟩
        rw [← hs]
        exact ih hrest
    · by_cases h2 : c = '\r' ∧ ∃ r, rest = '\n' :: r
      · exfalso
        rcases h2 with ⟨rfl, r, rfl⟩
        rw [crlf_isPrefixOf_crlf r] at hpre
        cases hpre
      · rw [splitLines_cons_other h1 h2]
        rcases hs : Dedupe.splitLines rest with _ | ⟨l0, ls0⟩
        · exact absurd hs (splitLines_ne_nil rest)
        · rcases hls : ls0 with _ | ⟨l1, ls1⟩
          · trivial
          · have hal := ih hrest
            rw [hs, hls] at hal
            refine ⟨?_, hal.2⟩
            cases hl0 : l0 with
            | nil =>
              rw [hl0, hls] at hs
              rcases splitLines_head_empty hs with ⟨r, hr⟩ | ⟨r, hr⟩
              · have hcr : c ≠ '\r' := by
                  intro hcc
                  rw [hcc, hr] at hpre
                  rw [crlf_isPrefixOf_crlf r] at hpre
                  cases hpre
                simp [hcr]
              · exfalso
                rw [hr] at hrest
                rw [show hasSub "\r\n".data ('\r' :: '\n' :: r) =
                    ("\r\n".data.isPrefixOf ('\r' :: '\n' :: r) || hasSub "\r\n".data ('\n' :: r))
                  from rfl] at hrest
                rw [crlf_isPrefixOf_crlf r] at hrest
                cases hrest
            | cons d l0' =>
              have hP : l0.getLast? ≠ some '\r' := hal.1
              rw [hl0] at hP
              rw [List.getLast?_cons_cons]
              exact hP

theorem hasSub_append_right {p : Str} (u : Str) {v : Str}
    (h : hasSub p v = true) : hasSub p (u ++ v) = true := by
  induction u with
  | nil => exact h
  | cons c rest ih =>
    rw [List.cons_append]
    unfold hasSub
    rw [ih]
    simp

theorem hasSub_crlf_head (t : Str) : hasSub "\r\n".data ('\r' :: '\n' :: t) = true := by
  unfold hasSub
  rw [crlf_isPrefixOf_crlf]
  simp

theorem joinSep_cons₂ (sep : Str) (l l2 : Str) (rest : List Str) :
    Dedupe.joinSep sep (l :: l2 :: rest) = l ++ sep ++ Dedupe.joinSep sep (l2 :: rest) := rfl

theorem hasSub_crlf_join_crlf (l l2 : Str) (rest : List Str) :
    hasSub "\r\n".data (Dedupe.joinSep "\r\n".data (l :: l2 :: rest)) = true := by
  rw [joinSep_cons₂, List.append_assoc]
  exact hasSub_append_right l (hasSub_crlf_head _)

theorem no_crlf_of_no_nl {l : Str} (h : '\n' ∉ l) : hasSub "\r\n".data l = false := by
  induction l with
  | nil => rfl
  | cons c rest ih =>
    have hpre : "\r\n".data.isPrefixOf (c :: rest) = false := by
      cases rest with
      | nil => simp [List.isPrefixOf]
      | cons d r =>
        have hd : d ≠ '\n' := fun e => h (by rw [e]; simp)
        simp [List.isPrefixOf]
        intro _ hdn
        exact absurd hdn.symm hd
    have hunf : hasSub "\r\n".data (c :: rest) =
        (("\r\n".data.isPrefixOf (c :: rest)) || hasSub "\r\n".data rest) := rfl
    rw [hunf, hpre, ih (fun hm => h (List.mem_cons_of_mem _ hm))]
    rfl

theorem hasSub_crlf_append_lf {l : Str} (t : Str) (h : '\n' ∉ l)
    (hlast : l.getLast? ≠ some '\r') :
    hasSub "\r\n".data (l ++ '\n' :: t) = hasSub "\r\n".data t := by
  induction l with
  | nil =>
    rw [List.nil_append]
    have hunf : hasSub "\r\n".data ('\n' :: t) =
        (("\r\n".data.isPrefixOf ('\n' :: t)) || hasSub "\r\n".data t) := rfl
    rw [hunf, show ("\r\n".data.isPrefixOf ('\n' :: t)) = false by simp [List.isPrefixOf]]
    simp
  | cons c rest ih =>
    rw [List.cons_append]
    have hunf : hasSub "\r\n".data (c :: (rest ++ '\n' :: t)) =
        (("\r\n".data.isPrefixOf (c :: (rest ++ '\n' :: t))) ||
          hasSub "\r\n".data (rest ++ '\n' :: t)) := rfl
    rw [hunf]
    have hpre : "\r\n".data.isPrefixOf (c :: (rest ++ '\n' :: t)) = false := by
      cases hr : rest with
      | nil =>
        have hc : c ≠ '\r' := by
          intro e
          rw [hr, e] at hlast
          rw [List.getLast?_singleton] at hlast
          exact hlast rfl
        simp [List.isPrefixOf]
        intro e
        exact absurd e.symm hc
      | cons d r =>
        have hd : d ≠ '\n' := fun e => h (by rw [hr, e]; simp)
        rw [List.cons_append]
        simp [List.isPrefixOf]
        intro _ hdn
        exact absurd hdn.symm hd
    rw [hpre]
    have hlast' : rest.getLast? ≠ some '\r' := by
      cases rest with
      | nil => simp
      | cons d r =>
        rw [List.getLast?_cons_cons] at hlast
        exact hlast
    rw [ih (fun hm => h (List.mem_cons_of_mem _ hm)) hlast']
    simp

theorem no_crlf_join_lf : ∀ out : List Str,
    (∀ l ∈ out, '\n' ∉ l) →
    allButLast (fun l => l.getLast? ≠ some '\r') out →
    hasSub "\r\n".data (Dedupe.joinSep "\n".data out) = false := by
  intro out
  induction out with
  | nil => intro _ _; rfl
  | cons l rest ih =>
    intro hnl hal
    cases rest with
    | nil => exact no_crlf_of_no_nl (hnl l (by simp))
    | cons l2 rest' =>
      rw [joinSep_cons₂, List.append_assoc]
      rw [show ("\n".data ++ Dedupe.joinSep "\n".data (l2 :: rest')) =
        '\n' :: Dedupe.joinSep "\n".data (l2 :: rest') from rfl]
      rw [hasSub_crlf_append_lf _ (hnl l (by simp)) hal.1]
      exact ih (fun x hx => hnl x (by simp [hx])) (allButLast_tail hal)

theorem split_join_crlf : ∀ out : List Str, out ≠ [] →
    (∀ l ∈ out, '\n' ∉ l) →
    Dedupe.splitLines (Dedupe.joinSep "\r\n".data out) = out := by
  intro out
  induction out with
  | nil => intro h _; exact absurd rfl h
  | cons l rest ih =>
    intro _ hnl
    cases rest with
    | nil => exact splitLines_no_nl (hnl l (by simp))
    | cons l2 rest' =>
      rw [joinSep_cons₂, List.append_assoc]
      rw [show ("\r\n".data ++ Dedupe.joinSep "\r\n".data (l2 :: rest')) =
        '\r' :: '\n' :: Dedupe.joinSep "\r\n".data (l2 :: rest') from rfl]
      rw [splitLines_append_crlf _ (hnl l (by simp))]
      rw [ih (by simp) (fun x hx => hnl x (by simp [hx]))]

theorem split_join_lf : ∀ out : List Str, out ≠ [] →
    (∀ l ∈ out, '\n' ∉ l) →
    allButLast (fun l => l.getLast? ≠ some '\r') out →
    Dedupe.splitLines (Dedupe.joinSep "\n".data out) = out := by
  intro out
  induction out with
  | nil => intro h _ _; exact absurd rfl h
  | cons l rest ih =>
    intro _ hnl hal
    cases rest with
    | nil => exact splitLines_no_nl (hnl l (by simp))
    | cons l2 rest' =>
      rw [joinSep_cons₂, List.append_assoc]
      rw [show ("\n".data ++ Dedupe.joinSep "\n".data (l2 :: rest')) =
        '\n' :: Dedupe.joinSep "\n".data (l2 :: rest') from rfl]
      rw [splitLines_append_lf _ (hnl l (by simp)) hal.1]
      rw [ih (by simp) (fun x hx => hnl x (by simp [hx])) (allButLast_tail hal)]

theorem keysOf_cons_none {l : Str} {rest : List Str} (h : dedupKey l = none) :
    keysOf (l :: rest) = keysOf rest := by
  unfold keysOf
  rw [List.filterMap_cons, h]

theorem keysOf_cons_some {l : Str} {rest : List Str} {d : Str}
    (h : dedupKey l = some d) : keysOf (l :: rest) = d :: keysOf rest := by
  unfold keysOf
  rw [List.filterMap_cons, h]

theorem dedupe_keys_fresh (L : List Str) : ∀ seen : List Str,
    (keysOf (Dedupe.dedupeStep seen L)).Nodup ∧
    (∀ d ∈ keysOf (Dedupe.dedupeStep seen L), d ∉ seen) := by
  induction L with
  | nil =>
    intro seen
    exact ⟨List.nodup_nil, by intro d hd; cases hd⟩
  | cons l rest ih =>
    intro seen
    by_cases hc : classify (jsTrim l) = LClass.candidate
    · rcases hp : Dedupe.parseDomainOnlyFromDoublePipe (jsTrim l) with _ | d
      · have hk : dedupKey l = none := by rw [dedupKey_of_cand hc, hp]
        simp only [Dedupe.dedupeStep, hp]
        rw [if_neg (by simp [hc]), keysOf_cons_none hk]
        exact ih seen
      · have hk : dedupKey l = some d := by rw [dedupKey_of_cand hc, hp]
        simp only [Dedupe.dedupeStep, hp]
        rw [if_neg (by simp [hc])]
        by_cases hd : d ∈ seen
        · rw [if_pos hd]
          exact ih seen
        · rw [if_neg hd, keysOf_cons_some hk]
          have ihs := ih (seen ++ [d])
          constructor
          · refine List.nodup_cons.2 ⟨?_, ihs.1⟩
            intro hdm
            exact (ihs.2 d hdm) (by simp)
          · intro k hk'
            rcases List.mem_cons.1 hk' with rfl | hk'
            · exact hd
            · intro hks
              exact (ihs.2 k hk') (by simp [hks])
    · have hk : dedupKey l = none := dedupKey_of_not_cand hc
      simp only [Dedupe.dedupeStep]
      rw [if_pos (by simp [hc]), keysOf_cons_none hk]
      exact ih seen

theorem dedupeStep_noop (L : List Str) : ∀ seen : List Str,
    (keysOf L).Nodup → (∀ d ∈ keysOf L, d ∉ seen) →
    Dedupe.dedupeStep seen L = L := by
  induction L with
  | nil => intro seen _ _; rfl
  | cons l rest ih =>
    intro seen hnd hdis
    by_cases hc : classify (jsTrim l) = LClass.candidate
    · rcases hp : Dedupe.parseDomainOnlyFromDoublePipe (jsTrim l) with _ | d
      · have hk : dedupKey l = none := by rw [dedupKey_of_cand hc, hp]
        rw [keysOf_cons_none hk] at hnd hdis
        simp only [Dedupe.dedupeStep, hp]
        rw [if_neg (by simp [hc])]
        rw [ih seen hnd hdis]
      · have hk : dedupKey l = some d := by rw [dedupKey_of_cand hc, hp]
        rw [keysOf_cons_some hk] at hnd hdis
        have hd : d ∉ seen := hdis d (by simp)
        simp only [Dedupe.dedupeStep, hp]
        rw [if_neg (by simp [hc]), if_neg hd]
        rw [ih (seen ++ [d]) (List.nodup_cons.1 hnd).2]
        intro k hkmem
        rw [List.mem_append, List.mem_singleton]
        rintro (hks | rfl)
        · exact hdis k (by simp [hkmem]) hks
        · exact (List.nodup_cons.1 hnd).1 hkmem
    · have hk : dedupKey l = none := dedupKey_of_not_cand hc
      rw [keysOf_cons_none hk] at hnd hdis
      simp only [Dedupe.dedupeStep]
      rw [if_pos (by simp [hc]), ih seen hnd hdis]

theorem dedupeLines_idem (L : List Str) :
    Dedupe.dedupeLines (Dedupe.dedupeLines L) = Dedupe.dedupeLines L := by
  unfold Dedupe.dedupeLines
  exact dedupeStep_noop _ [] (dedupe_keys_fresh L []).1 (by intro d _ hd; cases hd)

theorem dedupeStep_cons_ne_nil (l : Str) (ls : List Str) :
    Dedupe.dedupeStep [] (l :: ls) ≠ [] := by
  by_cases hc : classify (jsTrim l) = LClass.candidate
  · rcases hp : Dedupe.parseDomainOnlyFromDoublePipe (jsTrim l) with _ | d
    · simp only [Dedupe.dedupeStep, hp]
      rw [if_neg (by simp [hc])]
      simp
    · simp only [Dedupe.dedupeStep, hp]
      rw [if_neg (by simp [hc]), if_neg (by simp : ¬ d ∈ ([] : List Str))]
      simp
  · simp only [Dedupe.dedupeStep]
    rw [if_pos (by simp [hc])]
    simp

/-- C10: the dedupe tool's text-to-text transformation is idempotent —
running it on its own output returns the output unchanged. -/
theorem C10_dedupe_idempotent (raw : Str) :
    Dedupe.dedupeText (Dedupe.dedupeText raw) = Dedupe.dedupeText raw := by
  have hLne := splitLines_ne_nil raw
  have hnl : ∀ l ∈ Dedupe.dedupeLines (Dedupe.splitLines raw), '\n' ∉ l := by
    intro l hl
    exact noNL_splitLines raw l ((dedupeStep_sublist _ []).subset hl)
  have hone : Dedupe.dedupeLines (Dedupe.splitLines raw) ≠ [] := by
    rcases hs : Dedupe.splitLines raw with _ | ⟨l0, ls⟩
    · exact absurd hs hLne
    · exact dedupeStep_cons_ne_nil l0 ls
  have hidem := dedupeLines_idem (Dedupe.splitLines raw)
  unfold Dedupe.dedupeText Dedupe.eolOf
  by_cases hcr : hasSub "\r\n".data raw = true
  · rw [if_pos hcr]
    rcases hout : Dedupe.dedupeLines (Dedupe.splitLines raw) with _ | ⟨l, rest⟩
    · exact absurd hout hone
    · rcases rest with _ | ⟨l2, rest'⟩
      · rw [show Dedupe.joinSep "\r\n".data [l] = l from rfl]
        have hlnl : '\n' ∉ l := hnl l (by rw [hout]; simp)
        have h1 : hasSub "\r\n".data l = false := no_crlf_of_no_nl hlnl
        rw [if_neg (by rw [h1]; exact Bool.false_ne_true)]
        rw [splitLines_no_nl hlnl]
        have hsingle : Dedupe.dedupeLines [l] = [l] := by
          have hnd : (keysOf [l]).Nodup := by
            rcases hk : dedupKey l with _ | d
            · rw [keysOf_cons_none hk]
              exact List.nodup_nil
            · rw [keysOf_cons_some hk]
              simp [keysOf]
          exact dedupeStep_noop [l] [] hnd (by intro d _ hd; cases hd)
        rw [hsingle]
        rfl
      · have hnl2 : ∀ x ∈ (l :: l2 :: rest'), '\n' ∉ x := by
          rw [← hout]
          exact hnl
        rw [if_pos (hasSub_crlf_join_crlf l l2 rest')]
        rw [split_join_crlf _ (by simp) hnl2]
        rw [← hout, hidem, hout]
  · have hcr' : hasSub "\r\n".data raw = false := by
      cases h : hasSub "\r\n".data raw
      · rfl
      · exact absurd h hcr
    rw [if_neg hcr]
    have hnocr : allButLast (fun l => l.getLast? ≠ some '\r')
        (Dedupe.dedupeLines (Dedupe.splitLines raw)) :=
      allButLast_sublist (dedupeStep_sublist _ []) (allButLast_no_cr raw hcr')
    have htxt : hasSub "\r\n".data
        (Dedupe.joinSep "\n".data (Dedupe.dedupeLines (Dedupe.splitLines raw))) = false :=
      no_crlf_join_lf _ hnl hnocr
    rw [if_neg (by rw [htxt]; exact Bool.false_ne_true)]
    rw [split_join_lf _ hone hnl hnocr, hidem]
